import Mathlib

/-!
Verification of the exact minimum-vertex-coloring solvers of the
CS412NPComplete repository.

The repository represents a graph as a Python dict mapping each vertex to
the set of its neighbours, and a (partial) coloring as a Python dict
mapping vertices to non-negative integer colors.  We embed both as
association lists over `Nat`:

  * `Graph    := List (Nat × List Nat)` — dict `{vertex: set_of_neighbors}`;
    the list order models the dict's key insertion order (which is
    observable in Python via `graph.keys()` iteration), and the neighbour
    set is modelled as a duplicate-free list.
  * `Coloring := List (Nat × Nat)` — dict `{vertex: color}`.

Python dict operations are embedded exactly: lookup finds the (unique)
binding, assignment `d[k] = v` overwrites in place when `k` is present and
appends at the end otherwise (Python dicts preserve insertion order), and
`del d[k]` removes the binding.
-/

namespace MVC

/-- A graph: Python dict `{vertex: set_of_neighbors}` as an association
list, in key insertion order. -/
abbrev Graph := List (Nat × List Nat)

/-- A (partial) coloring: Python dict `{vertex: color}` as an association
list, in key insertion order. -/
abbrev Coloring := List (Nat × Nat)

/-- The keys of the graph dict, in insertion order. -/
def keys (g : Graph) : List Nat := g.map Prod.fst

/-- `graph[v]`: the neighbour set of `v` (empty if `v` is not a key;
callers only use it on keys). -/
def nbrsOf (g : Graph) (v : Nat) : List Nat :=
  match g with
  | [] => []
  | (u, ns) :: t => if u = v then ns else nbrsOf t v

/-- `color_assignment.get(v)`: dict lookup, `none` when absent. -/
def getColor (col : Coloring) (v : Nat) : Option Nat :=
  match col with
  | [] => none
  | (u, c) :: t => if u = v then some c else getColor t v

/-- `color_assignment[v] = c`: dict assignment.  Overwrites the existing
binding in place when present, otherwise appends at the end (Python dicts
preserve insertion order). -/
def dinsert (col : Coloring) (v c : Nat) : Coloring :=
  match col with
  | [] => [(v, c)]
  | (u, c') :: t => if u = v then (v, c) :: t else (u, c') :: dinsert t v c

/-- `del color_assignment[v]`: dict deletion. -/
def derase (col : Coloring) (v : Nat) : Coloring :=
  match col with
  | [] => []
  | (u, c') :: t => if u = v then t else (u, c') :: derase t v

/-- `len(graph[v])`: the degree of `v`. -/
def degree (g : Graph) (v : Nat) : Nat := (nbrsOf g v).length

/-- The smallest natural number not in `l`, computed by scanning candidates
`0, 1, 2, ...` in order; `l.length + 1` candidates suffice by pigeonhole.
This embeds the loop `c = 0; while c in neighbor_colors: c += 1` of
`greedy_coloring`. -/
def mexGo (l : List Nat) : List Nat → Nat
  | [] => 0
  | c :: cs => if c ∈ l then mexGo l cs else c

/-- Smallest non-conflicting color: `while c in neighbor_colors: c += 1`. -/
def mex (l : List Nat) : Nat := mexGo l (List.range (l.length + 1))

/-- One iteration of the `for v in order` loop of `greedy_coloring`:
collect the colors of already-colored neighbours and assign the smallest
color not among them. -/
def greedyStep (g : Graph) (col : Coloring) (v : Nat) : Coloring :=
  dinsert col v (mex ((nbrsOf g v).filterMap (fun u => getColor col u)))

/-- `max(color.values()) + 1 if color else 0`. -/
def numColors (col : Coloring) : Nat :=
  match col with
  | [] => 0
  | _ => (col.map Prod.snd).foldr max 0 + 1

/-- `greedy_coloring(graph, order)` from min_vertex_coloring.py: first-fit
greedy coloring along `order`, returning `(num_colors, color_assignment)`.
The `order=None` default (sorted keys) is never exercised by the solver,
which always passes the degree order explicitly. -/
def greedy_coloring (g : Graph) (order : List Nat) : Nat × Coloring :=
  if g.isEmpty then (0, [])
  else
    let col := order.foldl (greedyStep g) []
    (numColors col, col)

/-- Stable insertion (descending by `key`) used to embed Python's stable
`sorted(..., key=key, reverse=True)`: `x` is placed before the first
element whose key is `≤ key x`, so elements with equal keys keep their
original relative order. -/
def insDesc (key : Nat → Nat) (x : Nat) : List Nat → List Nat
  | [] => [x]
  | y :: ys => if key y ≤ key x then x :: y :: ys else y :: insDesc key x ys

/-- Stable sort, descending by `key` (insertion sort; the unique stable
descending order, hence extensionally equal to Python's Timsort-based
`sorted(..., reverse=True)`). -/
def sortDesc (key : Nat → Nat) : List Nat → List Nat
  | [] => []
  | x :: xs => insDesc key x (sortDesc key xs)

/-- `_order_vertices_by_degree(graph)`:
`sorted(graph.keys(), key=lambda v: len(graph[v]), reverse=True)`. -/
def order_vertices_by_degree (g : Graph) : List Nat := sortDesc (degree g) (keys g)

/-- `_is_color_valid(graph, vertex, c, color_assignment)`: no neighbour of
`vertex` currently has color `c` (`color_assignment.get(neighbor) == c`). -/
def is_color_valid (g : Graph) (v c : Nat) (col : Coloring) : Bool :=
  (nbrsOf g v).all (fun u => !(getColor col u == some c))

/-- `_backtrack_coloring(graph, order, index, color_assignment, used_colors,
best_num_colors, best_assignment)` from min_vertex_coloring.py.

The Python function mutates `color_assignment` in place and communicates
results through the one-element lists `best_num_colors`/`best_assignment`;
we thread both explicitly and return the pair
`(color_assignment after the call, (best_num_colors[0], best_assignment[0]))`.
The suffix `order[index:]` of the fixed order is passed as a list, so
`index == len(order)` becomes the `[]` case and `order[index]` the head.
The `for c in range(used_colors)` loop is a fold over `List.range used`. -/
def backtrack_coloring (g : Graph) :
    List Nat → Coloring → Nat → Nat × Coloring → Coloring × (Nat × Coloring)
  | [], col, used, best =>
      if used < best.1 then (col, (used, col)) else (col, best)
  | v :: rest, col, used, best =>
      if used ≥ best.1 then (col, best)
      else
        let s1 := (List.range used).foldl (fun st c =>
          if is_color_valid g v c st.1 then
            let r := backtrack_coloring g rest (dinsert st.1 v c) used st.2
            (derase r.1 v, r.2)
          else st) (col, best)
        if used + 1 < s1.2.1 then
          if is_color_valid g v used s1.1 then
            let r := backtrack_coloring g rest (dinsert s1.1 v used) (used + 1) s1.2
            (derase r.1 v, r.2)
          else s1
        else s1

/-- One iteration of the `for c in range(used_colors)` loop of
`_backtrack_coloring`, extracted for reasoning; `backtrack_coloring` on a
cons unfolds definitionally to a fold of this step function. -/
def tryStep (g : Graph) (rest : List Nat) (v used : Nat)
    (st : Coloring × (Nat × Coloring)) (c : Nat) : Coloring × (Nat × Coloring) :=
  if is_color_valid g v c st.1 then
    let r := backtrack_coloring g rest (dinsert st.1 v c) used st.2
    (derase r.1 v, r.2)
  else st

/-- Variant of `_backtrack_coloring` with the neighbour-conflict guard on
the new-color branch removed, used to state that this guard never fails
(the skip branch is dead code in reachable states). -/
def backtrack_coloringNG (g : Graph) :
    List Nat → Coloring → Nat → Nat × Coloring → Coloring × (Nat × Coloring)
  | [], col, used, best =>
      if used < best.1 then (col, (used, col)) else (col, best)
  | v :: rest, col, used, best =>
      if used ≥ best.1 then (col, best)
      else
        let s1 := (List.range used).foldl (fun st c =>
          if is_color_valid g v c st.1 then
            let r := backtrack_coloringNG g rest (dinsert st.1 v c) used st.2
            (derase r.1 v, r.2)
          else st) (col, best)
        if used + 1 < s1.2.1 then
          let r := backtrack_coloringNG g rest (dinsert s1.1 v used) (used + 1) s1.2
          (derase r.1 v, r.2)
        else s1

/-- The loop step of `backtrack_coloringNG`, mirroring `tryStep`. -/
def tryStepNG (g : Graph) (rest : List Nat) (v used : Nat)
    (st : Coloring × (Nat × Coloring)) (c : Nat) : Coloring × (Nat × Coloring) :=
  if is_color_valid g v c st.1 then
    let r := backtrack_coloringNG g rest (dinsert st.1 v c) used st.2
    (derase r.1 v, r.2)
  else st

/-- `find_minimum_vertex_coloring(graph)` from min_vertex_coloring.py:
greedy seed along the degree order, then exact branch-and-bound search
initialized with the greedy upper bound and assignment. -/
def find_minimum_vertex_coloring (g : Graph) : Nat × Coloring :=
  if g.isEmpty then (0, [])
  else
    let greedy_order := order_vertices_by_degree g
    let s := greedy_coloring g greedy_order
    (backtrack_coloring g greedy_order [] 0 s).2

/-- Well-formedness of the adjacency dict as the repository documents it:
distinct keys, duplicate-free neighbour sets, neighbours are themselves
vertices, symmetry, and no self-loops. -/
def GraphWF (g : Graph) : Prop :=
  (keys g).Nodup ∧ (∀ p ∈ g, p.2.Nodup) ∧ (∀ p ∈ g, ∀ u ∈ p.2, u ∈ keys g) ∧
    (∀ p ∈ g, ∀ u ∈ p.2, p.1 ∈ nbrsOf g u) ∧ (∀ p ∈ g, p.1 ∉ p.2)

/-- A coloring dict is proper: no two adjacent colored vertices share a
color. -/
def ProperColoring (g : Graph) (col : Coloring) : Prop :=
  ∀ u c w c', getColor col u = some c → getColor col w = some c' →
    w ∈ nbrsOf g u → c ≠ c'

/-- A coloring dict is total: every vertex of the graph is colored. -/
def TotalColoring (g : Graph) (col : Coloring) : Prop :=
  ∀ u ∈ keys g, (getColor col u).isSome

/-- The number of distinct colors used by a coloring dict. -/
def numDistinct (col : Coloring) : Nat := (col.map Prod.snd).dedup.length

/-- Properness for a coloring given as a total function on vertices. -/
def ProperFun (g : Graph) (f : Nat → Nat) : Prop :=
  ∀ u ∈ keys g, ∀ w ∈ nbrsOf g u, f u ≠ f w

/-- Number of distinct values of `f` on a list of vertices. -/
def countOn (f : Nat → Nat) (l : List Nat) : Nat := (l.map f).dedup.length

/-- Number of distinct colors a total coloring function uses on the graph. -/
def countFun (g : Graph) (f : Nat → Nat) : Nat := countOn f (keys g)

/-- Modelled from the spec (§4.2): "vertices sorted by descending degree
(ties broken by vertex id, ascending, for determinism)" — insertion sort by
the total order (degree descending, id ascending), to be compared with the
code's `order_vertices_by_degree`. -/
def insSpec (key : Nat → Nat) (x : Nat) : List Nat → List Nat
  | [] => [x]
  | y :: ys =>
      if key y < key x ∨ (key y = key x ∧ x ≤ y) then x :: y :: ys
      else y :: insSpec key x ys

/-- Modelled from the spec: sort by (degree descending, id ascending). -/
def sortSpec (key : Nat → Nat) : List Nat → List Nat
  | [] => []
  | x :: xs => insSpec key x (sortSpec key xs)

/-- Modelled from the spec: the vertex order the spec claims, i.e. keys
sorted by strictly descending degree with ties broken by ascending vertex
id. -/
def spec_order (g : Graph) : List Nat := sortSpec (degree g) (keys g)

/-- First-use renaming map: scanning the vertices in order, assign to each
newly seen `f`-color the next fresh index.  Used to turn an arbitrary
proper coloring into one whose colors appear in first-use order, which is
the shape of coloring the branch-and-bound search enumerates. -/
def canonMap (f : Nat → Nat) : List Nat → List (Nat × Nat) → List (Nat × Nat)
  | [], rm => rm
  | v :: rest, rm =>
      match getColor rm (f v) with
      | some _ => canonMap f rest rm
      | none => canonMap f rest (rm ++ [(f v, rm.length)])

/-- The canonical (first-use-renamed) version of a coloring function. -/
def canonize (f : Nat → Nat) (order : List Nat) : Nat → Nat :=
  fun v => (getColor (canonMap f order []) (f v)).getD 0

/-- `f` colors the vertices of the list in first-use order starting from
`k` colors already in use: each vertex either reuses one of the colors
`0..k-1` or introduces exactly the color `k`. -/
def canonFrom (f : Nat → Nat) : List Nat → Nat → Prop
  | [], _ => True
  | v :: rest, k => (f v < k ∧ canonFrom f rest k) ∨ (f v = k ∧ canonFrom f rest (k + 1))

/-- Well-formedness of a first-use renaming map: distinct keys, and the
stored values are `0, 1, 2, ...` in order of first appearance. -/
def RMinv (rm : List (Nat × Nat)) : Prop :=
  (rm.map Prod.fst).Nodup ∧ rm.map Prod.snd = List.range rm.length

/-- The state invariant of `_backtrack_coloring`: the partial coloring has
duplicate-free keys, colors exactly the already-placed vertices `done`, is
proper, and its colors are exactly `0 .. used-1`. -/
def SearchInv (g : Graph) (done : List Nat) (col : Coloring) (used : Nat) : Prop :=
  (col.map Prod.fst).Nodup ∧
    (∀ u, (getColor col u).isSome ↔ u ∈ done) ∧
    ProperColoring g col ∧
    (∀ c, (∃ u, getColor col u = some c) ↔ c < used)

/-- A best-result record is good: its stored coloring is a proper total
coloring whose number of distinct colors is the stored count. -/
def GoodBest (g : Graph) (best : Nat × Coloring) : Prop :=
  ProperColoring g best.2 ∧ TotalColoring g best.2 ∧ numDistinct best.2 = best.1

/-- The color set of a coloring dict is downward closed: whenever some
color `c` is in use, so is every smaller color.  The first-fit greedy
coloring maintains this, which makes its reported color count
`max + 1` equal to its number of distinct colors. -/
def DownClosed (col : Coloring) : Prop :=
  ∀ c c', (∃ u, getColor col u = some c) → c' < c → ∃ u, getColor col u = some c'

/-- `m` is the minimum, over all valid (proper) total colorings of the
graph, of the number of distinct colors used — i.e. `m` is the chromatic
number and it is attained. -/
def IsOptimal (g : Graph) (m : Nat) : Prop :=
  (∃ col, ProperColoring g col ∧ TotalColoring g col ∧ numDistinct col = m) ∧
    ∀ col, ProperColoring g col → TotalColoring g col → m ≤ numDistinct col

/-- The triangle `K3`, used as a concrete witness input. -/
def gK3 : Graph := [(0, [1, 2]), (1, [0, 2]), (2, [0, 1])]

/-- The path on four vertices, used as a concrete witness input. -/
def gP4 : Graph := [(0, [1]), (1, [0, 2]), (2, [1, 3]), (3, [2])]

end MVC

namespace Exact2

open MVC

/-- Stable ascending insertion, embedding Python's `sorted` on integer
lists. -/
def insAsc (x : Nat) : List Nat → List Nat
  | [] => [x]
  | y :: ys => if x ≤ y then x :: y :: ys else y :: insAsc x ys

/-- `sorted(...)` on a list of integers, ascending. -/
def sortAsc : List Nat → List Nat
  | [] => []
  | x :: xs => insAsc x (sortAsc xs)

/-- `is_safe_to_color(graph, vertex_order, index, color_assignment, color)`
from cs412_mingraphcolor_exact.py, with `v = vertex_order[index]` passed
directly: no neighbour of `v` currently holds `color`. -/
def is_safe_to_color (g : Graph) (v : Nat) (col : Coloring) (c : Nat) : Bool :=
  (nbrsOf g v).all (fun u => !(getColor col u == some c))

/-- `backtrack_with_k_colors(graph, vertex_order, index, color_assignment,
max_colors)`: plain backtracking with at most `k` colors.  The suffix
`vertex_order[index:]` is passed as a list.  The Python function mutates
`color_assignment` and returns a boolean; we return the mutated dict
together with that boolean.  The `for c in range(max_colors)` loop with its
early `return True` is a fold whose state short-circuits once the flag is
set. -/
def backtrack_with_k_colors (g : Graph) :
    List Nat → Coloring → Nat → Coloring × Bool
  | [], col, _ => (col, true)
  | v :: rest, col, k =>
      (List.range k).foldl (fun st c =>
        if st.2 then st
        else if is_safe_to_color g v st.1 c then
          let r := backtrack_with_k_colors g rest (dinsert st.1 v c) k
          if r.2 then (r.1, true) else (derase r.1 v, false)
        else st) (col, false)

/-- The loop step of `backtrack_with_k_colors`, extracted for reasoning. -/
def btkStep (g : Graph) (rest : List Nat) (v k : Nat)
    (st : Coloring × Bool) (c : Nat) : Coloring × Bool :=
  if st.2 then st
  else if is_safe_to_color g v st.1 c then
    let r := backtrack_with_k_colors g rest (dinsert st.1 v c) k
    if r.2 then (r.1, true) else (derase r.1 v, false)
  else st

/-- State invariant of `backtrack_with_k_colors`: duplicate-free keys, the
coloring covers exactly `done`, is proper, and only uses colors `< k`. -/
def SearchInv2 (g : Graph) (done : List Nat) (col : Coloring) (k : Nat) : Prop :=
  (col.map Prod.fst).Nodup ∧ (∀ u, (getColor col u).isSome ↔ u ∈ done) ∧
    ProperColoring g col ∧ (∀ u c, getColor col u = some c → c < k)

/-- The `for k in range(1, n + 1)` loop of the iterative-deepening solver:
try each `k` in turn with a fresh empty assignment, returning the first
success. -/
def tryKs (g : Graph) (vs : List Nat) : List Nat → Option (Nat × Coloring)
  | [] => none
  | k :: ks =>
      let r := backtrack_with_k_colors g vs [] k
      if r.2 then some (k, r.1) else tryKs g vs ks

/-- `find_minimum_vertex_coloring(graph)` from
cs412_mingraphcolor_exact.py: try `k = 1..n` with backtracking; the
`raise RuntimeError` branch after the loop is modelled as `none`. -/
def find_minimum_vertex_coloring (g : Graph) : Option (Nat × Coloring) :=
  if g.isEmpty then some (0, [])
  else
    let vertices := sortAsc (keys g)
    let n := vertices.length
    tryKs g vertices ((List.range n).map (fun i => i + 1))

/-- Set-insert into an adjacency list (`graph[u].add(v)`): appends unless
already present, so parallel edges are deduplicated. -/
def adjAdd (ns : List Nat) (u : Nat) : List Nat := if u ∈ ns then ns else ns ++ [u]

/-- `graph[u].add(w)`: add `w` to the neighbour set stored under key `u`
(dict keys are unique, so updating the first matching entry is the dict
semantics). -/
def addAdj : Graph → Nat → Nat → Graph
  | [], _, _ => []
  | (a, ns) :: t, u, w =>
      if a = u then (a, adjAdd ns w) :: t else (a, ns) :: addAdj t u w

/-- The edge-insertion body of `read_graph`'s build loop:
`if u == v: continue; graph[u].add(v); graph[v].add(u)`. -/
def addSymEdge (g : Graph) (u w : Nat) : Graph :=
  if u = w then g else addAdj (addAdj g u w) w u

/-- Set-insert for the `vertex_labels` set of `read_graph`. -/
def insertNewLbl (l : List Nat) (x : Nat) : List Nat := if x ∈ l then l else l ++ [x]

/-- Position of `x` in `l` (`label_to_index`); labels looked up are always
present. -/
def idxOf : List Nat → Nat → Nat
  | [], _ => 0
  | y :: ys, x => if y = x then 0 else idxOf ys x + 1

/-- `read_graph(stream)` from cs412_mingraphcolor_exact.py, for the
`n m` header form with numeric vertex labels (the form the claim is
about); the text-stream tokenization is abstracted away: `raw` is the list
of successfully parsed `u v` token pairs.  `read_m_edges` consumes the
first `m` pairs (self-loops are counted but skipped by `add_edge`); vertex
labels are collected from the surviving endpoints, falling back to
`0..n-1` when there are no edges; labels are sorted ascending and mapped
to dense indices; the adjacency dict is built symmetrically with set
semantics.  Out-of-range endpoints are never rejected: the function has no
failure outcome. -/
def read_graph (n m : Nat) (raw : List (Nat × Nat)) : Graph × List Nat :=
  let consumed := raw.take m
  let edges := consumed.filter (fun e => e.1 ≠ e.2)
  let labels := edges.foldl (fun s e => insertNewLbl (insertNewLbl s e.1) e.2) []
  let labels2 := if labels.isEmpty then List.range n else labels
  let sortedLabels := sortAsc labels2
  let g0 : Graph := (List.range sortedLabels.length).map (fun i => (i, []))
  let g := edges.foldl
    (fun gg e => addSymEdge gg (idxOf sortedLabels e.1) (idxOf sortedLabels e.2)) g0
  (g, sortedLabels)

/-- Invariant of `read_graph`'s adjacency-building fold: the keys are the
dense indices `0..N-1` and the adjacency is duplicate-free, in range,
symmetric and self-loop-free. -/
def BuildInv (N : Nat) (gg : Graph) : Prop :=
  keys gg = List.range N ∧ (∀ x, (nbrsOf gg x).Nodup) ∧
    (∀ x u, u ∈ nbrsOf gg x → u < N) ∧
    (∀ x u, u ∈ nbrsOf gg x → x ∈ nbrsOf gg u) ∧ (∀ x, x ∉ nbrsOf gg x)

/-- The result-assembly loop of `main` in cs412_mingraphcolor_exact.py:
for each dense index `i` in `range(len(index_to_label))`, emit the pair
`(index_to_label[i], coloring.get(i, 0))`.  There is no failure outcome:
an uncolored vertex silently receives color `0`. -/
def output_lines (index_to_label : List Nat) (coloring : Coloring) : List (Nat × Nat) :=
  (List.range index_to_label.length).map
    (fun i => (index_to_label.getD i 0, (getColor coloring i).getD 0))

end Exact2

namespace MVC

theorem getColor_dinsert_self (col : Coloring) (v c : Nat) :
    getColor (dinsert col v c) v = some c := by
  induction col with
  | nil => simp [dinsert, getColor]
  | cons p t ih =>
    obtain ⟨u, c'⟩ := p
    by_cases h : u = v
    · simp [dinsert, h, getColor]
    · simp [dinsert, h, getColor, ih]

theorem getColor_dinsert_ne (col : Coloring) (v c u : Nat) (h : u ≠ v) :
    getColor (dinsert col v c) u = getColor col u := by
  induction col with
  | nil => simp [dinsert, getColor, Ne.symm h]
  | cons p t ih =>
    obtain ⟨w, c'⟩ := p
    by_cases hw : w = v
    · subst hw
      have hwu : ¬ w = u := fun hh => h hh.symm
      simp [dinsert, getColor, hwu]
    · simp [dinsert, hw, getColor]
      by_cases hu : w = u
      · simp [hu]
      · simp [hu, ih]

theorem getColor_derase_self (col : Coloring) (v : Nat)
    (hnd : (col.map Prod.fst).Nodup) :
    getColor (derase col v) v = none := by
  induction col with
  | nil => simp [derase, getColor]
  | cons p t ih =>
    obtain ⟨w, c'⟩ := p
    simp only [List.map_cons, List.nodup_cons] at hnd
    by_cases hw : w = v
    · subst hw
      simp only [derase, if_pos rfl]
      -- w does not occur among the keys of t
      clear ih
      induction t with
      | nil => simp [getColor]
      | cons q s ihs =>
        obtain ⟨x, cx⟩ := q
        simp only [List.map_cons, List.mem_cons] at hnd
        have hx : x ≠ w := by
          intro hxw; exact hnd.1 (Or.inl hxw.symm)
        simp only [getColor, if_neg hx]
        exact ihs ⟨fun hm => hnd.1 (Or.inr hm), hnd.2.of_cons⟩
    · simp [derase, hw, getColor, ih hnd.2]

theorem getColor_derase_ne (col : Coloring) (v u : Nat) (h : u ≠ v) :
    getColor (derase col v) u = getColor col u := by
  induction col with
  | nil => simp [derase, getColor]
  | cons p t ih =>
    obtain ⟨w, c'⟩ := p
    by_cases hw : w = v
    · subst hw
      have hwu : ¬ w = u := fun hh => h hh.symm
      simp [derase, getColor, hwu]
    · simp [derase, hw, getColor]
      by_cases hu : w = u
      · simp [hu]
      · simp [hu, ih]

/-- If `v` is unbound, assignment appends at the end. -/
theorem dinsert_of_getColor_none (col : Coloring) (v c : Nat)
    (h : getColor col v = none) : dinsert col v c = col ++ [(v, c)] := by
  induction col with
  | nil => simp [dinsert]
  | cons p t ih =>
    obtain ⟨w, c'⟩ := p
    simp only [getColor] at h
    by_cases hw : w = v
    · simp [hw] at h
    · simp only [if_neg hw] at h
      simp [dinsert, hw, ih h]

/-- Deleting a key that is unbound leaves the dict unchanged. -/
theorem derase_of_getColor_none (col : Coloring) (v : Nat)
    (h : getColor col v = none) : derase col v = col := by
  induction col with
  | nil => simp [derase]
  | cons p t ih =>
    obtain ⟨w, c'⟩ := p
    simp only [getColor] at h
    by_cases hw : w = v
    · simp [hw] at h
    · simp only [if_neg hw] at h
      simp [derase, hw, ih h]

/-- Assigning a fresh key and then deleting it restores the dict exactly
(the rollback discipline of the backtracking search). -/
theorem derase_dinsert_cancel (col : Coloring) (v c : Nat)
    (h : getColor col v = none) : derase (dinsert col v c) v = col := by
  rw [dinsert_of_getColor_none col v c h]
  induction col with
  | nil => simp [derase]
  | cons p t ih =>
    obtain ⟨w, c'⟩ := p
    simp only [getColor] at h
    by_cases hw : w = v
    · simp [hw] at h
    · simp only [if_neg hw] at h
      simp [derase, hw, ih h]

theorem getColor_eq_none_of_not_mem_keys (col : Coloring) (v : Nat)
    (h : v ∉ col.map Prod.fst) : getColor col v = none := by
  induction col with
  | nil => simp [getColor]
  | cons p t ih =>
    obtain ⟨w, c'⟩ := p
    simp only [List.map_cons, List.mem_cons] at h
    push_neg at h
    have hwv : ¬ w = v := fun hh => h.1 hh.symm
    simp [getColor, hwv, ih h.2]

theorem mem_keys_of_getColor_some (col : Coloring) (v c : Nat)
    (h : getColor col v = some c) : v ∈ col.map Prod.fst := by
  induction col with
  | nil => simp [getColor] at h
  | cons p t ih =>
    obtain ⟨w, c'⟩ := p
    simp only [getColor] at h
    by_cases hw : w = v
    · simp [hw]
    · simp only [if_neg hw] at h
      simp [ih h]

theorem mem_of_getColor_some (col : Coloring) (v c : Nat)
    (h : getColor col v = some c) : (v, c) ∈ col := by
  induction col with
  | nil => simp [getColor] at h
  | cons p t ih =>
    obtain ⟨w, c'⟩ := p
    by_cases hw : w = v
    · subst hw
      simp only [getColor, if_true, eq_self_iff_true, Option.some.injEq] at h
      subst h
      exact List.mem_cons_self _ _
    · simp only [getColor, if_neg hw] at h
      exact List.mem_cons_of_mem _ (ih h)

theorem getColor_of_mem (col : Coloring) (v c : Nat)
    (hnd : (col.map Prod.fst).Nodup) (h : (v, c) ∈ col) :
    getColor col v = some c := by
  induction col with
  | nil => simp at h
  | cons p t ih =>
    obtain ⟨w, c'⟩ := p
    simp only [List.map_cons, List.nodup_cons] at hnd
    rcases List.mem_cons.mp h with h1 | h2
    · rw [← h1]
      simp [getColor]
    · have hw : w ≠ v := by
        intro hh
        subst hh
        exact hnd.1 (List.mem_map_of_mem Prod.fst h2)
      simp [getColor, hw, ih hnd.2 h2]

theorem snd_mem_of_getColor_some (col : Coloring) (v c : Nat)
    (h : getColor col v = some c) : c ∈ col.map Prod.snd :=
  List.mem_map_of_mem Prod.snd (mem_of_getColor_some col v c h)

theorem keys_dinsert_subset (col : Coloring) (v c u : Nat)
    (h : u ∈ (dinsert col v c).map Prod.fst) :
    u ∈ col.map Prod.fst ∨ u = v := by
  induction col with
  | nil =>
    simp only [dinsert, List.map_cons, List.map_nil, List.mem_singleton] at h
    exact Or.inr h
  | cons p t ih =>
    obtain ⟨w, c'⟩ := p
    by_cases hw : w = v
    · subst hw
      have hd : dinsert ((w, c') :: t) w c = (w, c) :: t := by
        simp [dinsert]
      rw [hd] at h
      simp only [List.map_cons, List.mem_cons] at h ⊢
      rcases h with h | h
      · exact Or.inr h
      · exact Or.inl (Or.inr h)
    · have hd : dinsert ((w, c') :: t) v c = (w, c') :: dinsert t v c := by
        simp [dinsert, hw]
      rw [hd] at h
      simp only [List.map_cons, List.mem_cons] at h ⊢
      rcases h with h | h
      · exact Or.inl (Or.inl h)
      · rcases ih h with h2 | h2
        · exact Or.inl (Or.inr h2)
        · exact Or.inr h2

theorem isSome_getColor_of_mem_keys (col : Coloring) (v : Nat)
    (h : v ∈ col.map Prod.fst) : (getColor col v).isSome := by
  induction col with
  | nil => simp at h
  | cons p t ih =>
    obtain ⟨w, c'⟩ := p
    by_cases hw : w = v
    · simp [getColor, hw]
    · simp only [List.map_cons, List.mem_cons] at h
      rcases h with h | h
      · exact absurd h.symm hw
      · simp [getColor, hw, ih h]

theorem not_mem_keys_of_getColor_none (col : Coloring) (v : Nat)
    (h : getColor col v = none) : v ∉ col.map Prod.fst := by
  intro hmem
  have := isSome_getColor_of_mem_keys col v hmem
  rw [h] at this
  simp at this

theorem keys_dinsert_nodup (col : Coloring) (v c : Nat)
    (hnd : (col.map Prod.fst).Nodup) (hv : getColor col v = none) :
    ((dinsert col v c).map Prod.fst).Nodup := by
  rw [dinsert_of_getColor_none col v c hv]
  rw [List.map_append]
  simp only [List.map_cons, List.map_nil]
  rw [List.nodup_append]
  refine ⟨hnd, List.nodup_singleton v, ?_⟩
  intro a ha hb
  simp only [List.mem_singleton] at hb
  subst hb
  exact not_mem_keys_of_getColor_none col a hv ha

/-! ### mex: the smallest color not in a list -/

theorem mexGo_spec (l : List Nat) :
    ∀ n s, (∃ j, j < n ∧ s + j ∉ l) →
      mexGo l (List.range' s n) ∉ l ∧ s ≤ mexGo l (List.range' s n) ∧
        ∀ d, s ≤ d → d < mexGo l (List.range' s n) → d ∈ l := by
  intro n
  induction n with
  | zero =>
    intro s hex
    obtain ⟨j, hj, _⟩ := hex
    omega
  | succ n ih =>
    intro s hex
    rw [List.range'_succ]
    by_cases hs : s ∈ l
    · simp only [mexGo, if_pos hs]
      have hex' : ∃ j, j < n ∧ (s + 1) + j ∉ l := by
        obtain ⟨j, hj, hmem⟩ := hex
        cases j with
        | zero => simp at hmem; exact absurd hs hmem
        | succ j' =>
          refine ⟨j', by omega, ?_⟩
          have : s + 1 + j' = s + (j' + 1) := by omega
          rw [this]
          exact hmem
      obtain ⟨h1, h2, h3⟩ := ih (s + 1) hex'
      refine ⟨h1, by omega, ?_⟩
      intro d hd1 hd2
      by_cases hds : d = s
      · subst hds; exact hs
      · exact h3 d (by omega) hd2
    · simp only [mexGo, if_neg hs]
      exact ⟨hs, Nat.le_refl s, fun d hd1 hd2 => absurd (Nat.lt_of_le_of_lt hd1 hd2)
        (Nat.lt_irrefl s)⟩

theorem mex_spec (l : List Nat) :
    mex l ∉ l ∧ ∀ d, d < mex l → d ∈ l := by
  have hex : ∃ j, j < l.length + 1 ∧ 0 + j ∉ l := by
    by_contra hcon
    push_neg at hcon
    have hsub : Finset.range (l.length + 1) ⊆ l.toFinset := by
      intro x hx
      simp only [Finset.mem_range] at hx
      have := hcon x hx
      simpa using this
    have hcard := Finset.card_le_card hsub
    simp only [Finset.card_range] at hcard
    have := List.toFinset_card_le l
    omega
  have h := mexGo_spec l (l.length + 1) 0 hex
  unfold mex
  rw [List.range_eq_range']
  exact ⟨h.1, fun d hd => h.2.2 d (Nat.zero_le d) hd⟩

theorem mex_not_mem (l : List Nat) : mex l ∉ l := (mex_spec l).1

theorem mem_of_lt_mex (l : List Nat) (d : Nat) (hd : d < mex l) : d ∈ l :=
  (mex_spec l).2 d hd

/-! ### The degree-descending stable sort -/

theorem insDesc_perm (key : Nat → Nat) (x : Nat) :
    ∀ l : List Nat, (insDesc key x l).Perm (x :: l) := by
  intro l
  induction l with
  | nil => simp [insDesc]
  | cons y ys ih =>
    by_cases h : key y ≤ key x
    · simp [insDesc, h]
    · simp only [insDesc, if_neg h]
      exact (List.Perm.cons y ih).trans (List.Perm.swap x y ys)

theorem sortDesc_perm (key : Nat → Nat) :
    ∀ l : List Nat, (sortDesc key l).Perm l := by
  intro l
  induction l with
  | nil => simp [sortDesc]
  | cons x xs ih =>
    exact (insDesc_perm key x (sortDesc key xs)).trans (List.Perm.cons x ih)

theorem insDesc_sorted (key : Nat → Nat) (x : Nat) (l : List Nat)
    (hl : List.Sorted (fun a b => key b ≤ key a) l) :
    List.Sorted (fun a b => key b ≤ key a) (insDesc key x l) := by
  induction l with
  | nil => simp [insDesc]
  | cons y ys ih =>
    rw [List.sorted_cons] at hl
    by_cases h : key y ≤ key x
    · simp only [insDesc, if_pos h]
      rw [List.sorted_cons]
      refine ⟨?_, List.sorted_cons.mpr hl⟩
      intro b hb
      rcases List.mem_cons.mp hb with hb | hb
      · subst hb; exact h
      · exact Nat.le_trans (hl.1 b hb) h
    · simp only [insDesc, if_neg h]
      rw [List.sorted_cons]
      refine ⟨?_, ih hl.2⟩
      intro b hb
      have hb' := (insDesc_perm key x ys).mem_iff.mp hb
      rcases List.mem_cons.mp hb' with hb' | hb'
      · subst hb'; omega
      · exact hl.1 b hb'

theorem sortDesc_sorted (key : Nat → Nat) (l : List Nat) :
    List.Sorted (fun a b => key b ≤ key a) (sortDesc key l) := by
  induction l with
  | nil => simp [sortDesc]
  | cons x xs ih => exact insDesc_sorted key x (sortDesc key xs) ih

theorem insDesc_filter (key : Nat → Nat) (x : Nat) (d : Nat) :
    ∀ l : List Nat,
      (insDesc key x l).filter (fun v => key v = d) =
        if key x = d then x :: l.filter (fun v => key v = d)
        else l.filter (fun v => key v = d) := by
  intro l
  induction l with
  | nil =>
    by_cases h : key x = d <;> simp [insDesc, h]
  | cons y ys ih =>
    by_cases h : key y ≤ key x
    · simp only [insDesc, if_pos h]
      by_cases hx : key x = d <;> simp [List.filter_cons, hx]
    · simp only [insDesc, if_neg h]
      by_cases hx : key x = d
      · have hy : ¬ (key y = d) := by omega
        simp [List.filter_cons, hy, ih, hx]
      · by_cases hy : key y = d <;> simp [List.filter_cons, hy, ih, hx]

theorem sortDesc_filter (key : Nat → Nat) (d : Nat) :
    ∀ l : List Nat,
      (sortDesc key l).filter (fun v => key v = d) =
        l.filter (fun v => key v = d) := by
  intro l
  induction l with
  | nil => simp [sortDesc]
  | cons x xs ih =>
    simp only [sortDesc]
    rw [insDesc_filter, ih]
    by_cases hx : key x = d <;> simp [List.filter_cons, hx]

/-! ### Neighbour-set and well-formedness facts -/

theorem nbrsOf_cases (g : Graph) (v : Nat) :
    (v ∈ keys g ∧ (v, nbrsOf g v) ∈ g) ∨ (v ∉ keys g ∧ nbrsOf g v = []) := by
  induction g with
  | nil => right; simp [keys, nbrsOf]
  | cons p t ih =>
    obtain ⟨w, ns⟩ := p
    by_cases hw : w = v
    · subst hw
      left
      constructor
      · simp [keys]
      · simp [nbrsOf]
    · rcases ih with ⟨h1, h2⟩ | ⟨h1, h2⟩
      · left
        refine ⟨?_, ?_⟩
        · simp [keys] at h1 ⊢; exact Or.inr h1
        · simp only [nbrsOf, if_neg hw]
          exact List.mem_cons_of_mem _ h2
      · right
        refine ⟨?_, ?_⟩
        · simp [keys] at h1 ⊢
          exact ⟨fun hh => hw hh.symm, h1⟩
        · simp only [nbrsOf, if_neg hw]
          exact h2

theorem mem_keys_of_mem_nbrs (g : Graph) (u v : Nat) (h : u ∈ nbrsOf g v) :
    v ∈ keys g := by
  rcases nbrsOf_cases g v with ⟨h1, _⟩ | ⟨_, h2⟩
  · exact h1
  · rw [h2] at h; simp at h

theorem wf_closed (g : Graph) (hwf : GraphWF g) (u v : Nat)
    (h : u ∈ nbrsOf g v) : u ∈ keys g := by
  rcases nbrsOf_cases g v with ⟨_, h2⟩ | ⟨_, h2⟩
  · exact hwf.2.2.1 _ h2 u h
  · rw [h2] at h; simp at h

theorem wf_symm (g : Graph) (hwf : GraphWF g) (u v : Nat)
    (h : u ∈ nbrsOf g v) : v ∈ nbrsOf g u := by
  rcases nbrsOf_cases g v with ⟨_, h2⟩ | ⟨_, h2⟩
  · exact hwf.2.2.2.1 _ h2 u h
  · rw [h2] at h; simp at h

theorem wf_irrefl (g : Graph) (hwf : GraphWF g) (v : Nat) :
    v ∉ nbrsOf g v := by
  rcases nbrsOf_cases g v with ⟨_, h2⟩ | ⟨_, h2⟩
  · exact hwf.2.2.2.2 _ h2
  · rw [h2]; simp

theorem wf_nbrs_nodup (g : Graph) (hwf : GraphWF g) (v : Nat) :
    (nbrsOf g v).Nodup := by
  rcases nbrsOf_cases g v with ⟨_, h2⟩ | ⟨_, h2⟩
  · exact hwf.2.1 _ h2
  · rw [h2]; simp

/-- The degree order is a permutation of the dict keys. -/
theorem order_perm_keys (g : Graph) :
    (order_vertices_by_degree g).Perm (keys g) := sortDesc_perm _ _

theorem mem_order_iff (g : Graph) (v : Nat) :
    v ∈ order_vertices_by_degree g ↔ v ∈ keys g :=
  (order_perm_keys g).mem_iff

theorem order_nodup (g : Graph) (hnd : (keys g).Nodup) :
    (order_vertices_by_degree g).Nodup :=
  ((order_perm_keys g).nodup_iff).mpr hnd

/-! ### The greedy first-fit coloring -/

/-- Master invariant of the `for v in order` loop of `greedy_coloring`:
processing a duplicate-free list of still-uncolored vertices preserves
existing assignments and key-nodup-ness, colors exactly the processed
vertices on top of the existing ones, and keeps the coloring proper with a
downward-closed color set. -/
theorem greedy_fold_invariant (g : Graph) (hwf : GraphWF g) :
    ∀ (rest : List Nat) (col : Coloring),
      rest.Nodup → (∀ u ∈ rest, getColor col u = none) →
      (col.map Prod.fst).Nodup → ProperColoring g col → DownClosed col →
      (∀ u c, getColor col u = some c →
          getColor (rest.foldl (greedyStep g) col) u = some c) ∧
        (∀ u, (getColor (rest.foldl (greedyStep g) col) u).isSome ↔
          (getColor col u).isSome ∨ u ∈ rest) ∧
        ((rest.foldl (greedyStep g) col).map Prod.fst).Nodup ∧
        ProperColoring g (rest.foldl (greedyStep g) col) ∧
        DownClosed (rest.foldl (greedyStep g) col) := by
  intro rest
  induction rest with
  | nil =>
    intro col _ _ h3 h4 h5
    refine ⟨fun u c h => h, fun u => by simp, h3, h4, h5⟩
  | cons v rest ih =>
    intro col hnd hnone h3 h4 h5
    simp only [List.foldl_cons]
    set m := mex ((nbrsOf g v).filterMap (fun u => getColor col u)) with hm
    have hvnone : getColor col v = none := hnone v (List.mem_cons_self v rest)
    have hstep : greedyStep g col v = dinsert col v m := rfl
    rw [hstep]
    set col' := dinsert col v m with hcol'
    have hself : getColor col' v = some m := getColor_dinsert_self col v m
    have hne : ∀ u, u ≠ v → getColor col' u = getColor col u :=
      fun u hu => getColor_dinsert_ne col v m u hu
    have hnd' : rest.Nodup := hnd.of_cons
    have hvrest : v ∉ rest := (List.nodup_cons.mp hnd).1
    have hnone' : ∀ u ∈ rest, getColor col' u = none := by
      intro u hu
      have huv : u ≠ v := fun hh => hvrest (hh ▸ hu)
      rw [hne u huv]
      exact hnone u (List.mem_cons_of_mem v hu)
    have hkeys' : (col'.map Prod.fst).Nodup := keys_dinsert_nodup col v m h3 hvnone
    -- colors present in the neighbour set of v
    have hS : ∀ c', c' ∈ (nbrsOf g v).filterMap (fun u => getColor col u) ↔
        ∃ u ∈ nbrsOf g v, getColor col u = some c' := by
      intro c'
      simp [List.mem_filterMap]
    have hproper' : ProperColoring g col' := by
      intro u c w c' hu hw hadj
      by_cases huv : u = v
      · subst huv
        rw [hself] at hu
        injection hu with hu
        subst hu
        by_cases hwv : w = u
        · subst hwv
          exact absurd hadj (wf_irrefl g hwf w)
        · rw [hne w hwv] at hw
          have : c' ∈ (nbrsOf g u).filterMap (fun x => getColor col x) :=
            (hS c').mpr ⟨w, hadj, hw⟩
          intro hcc
          subst hcc
          exact mex_not_mem _ this
      · rw [hne u huv] at hu
        by_cases hwv : w = v
        · subst hwv
          rw [hself] at hw
          injection hw with hw
          subst hw
          have hadj' : u ∈ nbrsOf g w := wf_symm g hwf w u hadj
          have : c ∈ (nbrsOf g w).filterMap (fun x => getColor col x) :=
            (hS c).mpr ⟨u, hadj', hu⟩
          intro hcc
          rw [hcc] at this
          exact mex_not_mem _ this
        · rw [hne w hwv] at hw
          exact h4 u c w c' hu hw hadj
    have hdc' : DownClosed col' := by
      intro c c' hc hlt
      obtain ⟨u2, hu⟩ := hc
      by_cases huv : u2 = v
      · rw [huv, hself] at hu
        injection hu with hu
        subst hu
        have hmem : c' ∈ (nbrsOf g v).filterMap (fun x => getColor col x) :=
          mem_of_lt_mex _ c' hlt
        obtain ⟨w, _, hw⟩ := (hS c').mp hmem
        have hwv : w ≠ v := by
          intro hh
          rw [hh] at hw
          rw [hvnone] at hw
          exact Option.noConfusion hw
        exact ⟨w, (hne w hwv).symm ▸ hw⟩
      · rw [hne u2 huv] at hu
        obtain ⟨w, hw⟩ := h5 c c' ⟨u2, hu⟩ hlt
        have hwv : w ≠ v := by
          intro hh
          rw [hh] at hw
          rw [hvnone] at hw
          exact Option.noConfusion hw
        exact ⟨w, (hne w hwv).symm ▸ hw⟩
    obtain ⟨i1, i2, i3, i4, i5⟩ := ih col' hnd' hnone' hkeys' hproper' hdc'
    refine ⟨?_, ?_, i3, i4, i5⟩
    · intro u c hu
      have huv : u ≠ v := by
        intro hh
        rw [hh, hvnone] at hu
        exact Option.noConfusion hu
      exact i1 u c ((hne u huv).symm ▸ hu)
    · intro u
      rw [i2 u]
      by_cases huv : u = v
      · subst huv
        simp [hself, hvnone]
      · rw [hne u huv]
        simp [List.mem_cons, huv]

theorem foldr_max_ge (l : List Nat) : ∀ x ∈ l, x ≤ l.foldr max 0 := by
  induction l with
  | nil => simp
  | cons y ys ih =>
    intro x hx
    rcases List.mem_cons.mp hx with h | h
    · subst h
      simp only [List.foldr_cons]
      omega
    · have := ih x h
      simp only [List.foldr_cons]
      omega

theorem foldr_max_mem (l : List Nat) (h : l ≠ []) : l.foldr max 0 ∈ l := by
  induction l with
  | nil => exact absurd rfl h
  | cons y ys ih =>
    cases ys with
    | nil => simp
    | cons z zs =>
      rcases Nat.le_total ((z :: zs).foldr max 0) y with hle | hle
      · simp only [List.foldr_cons] at hle ⊢
        rw [Nat.max_eq_left hle]
        exact List.mem_cons_self _ _
      · simp only [List.foldr_cons] at hle ⊢
        rw [Nat.max_eq_right hle]
        have := ih (by simp)
        simp only [List.foldr_cons] at this
        exact List.mem_cons_of_mem _ this

/-- A value is among the dict's stored colors iff some vertex holds it
(keys being duplicate-free). -/
theorem value_mem_iff (col : Coloring) (hnd : (col.map Prod.fst).Nodup) (c : Nat) :
    c ∈ col.map Prod.snd ↔ ∃ u, getColor col u = some c := by
  constructor
  · intro h
    obtain ⟨p, hp, hpc⟩ := List.mem_map.mp h
    exact ⟨p.1, hpc ▸ getColor_of_mem col p.1 p.2 hnd hp⟩
  · intro ⟨u, hu⟩
    exact snd_mem_of_getColor_some col u c hu

/-- For a coloring with downward-closed colors, the reported count
`max + 1` is exactly the number of distinct colors in use. -/
theorem numDistinct_eq_numColors (col : Coloring)
    (hnd : (col.map Prod.fst).Nodup) (hdc : DownClosed col) :
    numDistinct col = numColors col := by
  cases col with
  | nil => simp [numDistinct, numColors]
  | cons p t =>
    have hnnil : ((p :: t).map Prod.snd) ≠ [] := by simp
    set M := ((p :: t).map Prod.snd).foldr max 0 with hMdef
    have hmemM : M ∈ (p :: t).map Prod.snd := foldr_max_mem _ hnnil
    have hfin : ((p :: t).map Prod.snd).toFinset = Finset.range (M + 1) := by
      apply Finset.ext
      intro c
      simp only [List.mem_toFinset, Finset.mem_range]
      constructor
      · intro hc
        have := foldr_max_ge ((p :: t).map Prod.snd) c hc
        omega
      · intro hc
        by_cases hlt : c < M
        · have hexM := (value_mem_iff (p :: t) hnd M).mp hmemM
          obtain ⟨u, hu⟩ := hdc M c hexM hlt
          exact (value_mem_iff (p :: t) hnd c).mpr ⟨u, hu⟩
        · have hceq : c = M := by omega
          rw [hceq]
          exact hmemM
    have hdl : ((p :: t).map Prod.snd).dedup.length =
        ((p :: t).map Prod.snd).toFinset.card := (List.card_toFinset _).symm
    rw [numDistinct, hdl, hfin, Finset.card_range]
    rw [hMdef]
    simp [numColors]

/-- The greedy seed along any duplicate-free order covering the graph is a
proper total coloring with downward-closed colors and duplicate-free keys. -/
theorem greedy_seed_good (g : Graph) (hwf : GraphWF g) (order : List Nat)
    (hnd : order.Nodup) (hcover : ∀ u, u ∈ keys g → u ∈ order)
    (hne : ¬ g.isEmpty) :
    ProperColoring g (greedy_coloring g order).2 ∧
      TotalColoring g (greedy_coloring g order).2 ∧
      numDistinct (greedy_coloring g order).2 = (greedy_coloring g order).1 := by
  have h := greedy_fold_invariant g hwf order [] hnd
    (fun u _ => rfl) (by simp) (fun u c w c' h1 => by simp [getColor] at h1)
    (fun c c' h1 => by
      obtain ⟨u, hu⟩ := h1
      simp [getColor] at hu)
  obtain ⟨_, i2, i3, i4, i5⟩ := h
  have hgc : greedy_coloring g order = (numColors (order.foldl (greedyStep g) []),
      order.foldl (greedyStep g) []) := by
    simp [greedy_coloring, hne]
  rw [hgc]
  refine ⟨i4, ?_, numDistinct_eq_numColors _ i3 i5⟩
  intro u hu
  rw [i2 u]
  right
  exact hcover u hu

/-! ### The branch-and-bound search: unfolding, monotonicity, rollback -/

theorem backtrack_nil (g : Graph) (col : Coloring) (used : Nat)
    (best : Nat × Coloring) :
    backtrack_coloring g [] col used best =
      if used < best.1 then (col, (used, col)) else (col, best) := rfl

theorem backtrack_cons (g : Graph) (v : Nat) (rest : List Nat) (col : Coloring)
    (used : Nat) (best : Nat × Coloring) :
    backtrack_coloring g (v :: rest) col used best =
      if used ≥ best.1 then (col, best)
      else
        let s1 := (List.range used).foldl (tryStep g rest v used) (col, best)
        if used + 1 < s1.2.1 then
          if is_color_valid g v used s1.1 then
            let r := backtrack_coloring g rest (dinsert s1.1 v used) (used + 1) s1.2
            (derase r.1 v, r.2)
          else s1
        else s1 := rfl

theorem backtrackNG_nil (g : Graph) (col : Coloring) (used : Nat)
    (best : Nat × Coloring) :
    backtrack_coloringNG g [] col used best =
      if used < best.1 then (col, (used, col)) else (col, best) := rfl

theorem backtrackNG_cons (g : Graph) (v : Nat) (rest : List Nat) (col : Coloring)
    (used : Nat) (best : Nat × Coloring) :
    backtrack_coloringNG g (v :: rest) col used best =
      if used ≥ best.1 then (col, best)
      else
        let s1 := (List.range used).foldl (tryStepNG g rest v used) (col, best)
        if used + 1 < s1.2.1 then
          let r := backtrack_coloringNG g rest (dinsert s1.1 v used) (used + 1) s1.2
          (derase r.1 v, r.2)
        else s1 := rfl

/-- The best-known color count never increases across a search call. -/
theorem backtrack_best_mono (g : Graph) :
    ∀ (rest : List Nat) (col : Coloring) (used : Nat) (best : Nat × Coloring),
      (backtrack_coloring g rest col used best).2.1 ≤ best.1 := by
  intro rest
  induction rest with
  | nil =>
    intro col used best
    rw [backtrack_nil]
    split
    · simpa using by omega
    · exact Nat.le_refl _
  | cons v rest ih =>
    intro col used best
    rw [backtrack_cons]
    by_cases hpr : used ≥ best.1
    · simp only [if_pos hpr]
      exact Nat.le_refl _
    · simp only [if_neg hpr]
      have hfold : ∀ (cs : List Nat) (st : Coloring × (Nat × Coloring)),
          ((cs.foldl (tryStep g rest v used) st)).2.1 ≤ st.2.1 := by
        intro cs
        induction cs with
        | nil => intro st; exact Nat.le_refl _
        | cons c cs ihc =>
          intro st
          rw [List.foldl_cons]
          refine Nat.le_trans (ihc _) ?_
          unfold tryStep
          split
          · exact ih _ _ _
          · exact Nat.le_refl _
      set s1 := (List.range used).foldl (tryStep g rest v used) (col, best) with hs1
      have hm1 : s1.2.1 ≤ best.1 := hfold _ _
      split
      · split
        · exact Nat.le_trans (ih _ _ _) hm1
        · exact hm1
      · exact hm1

/-- Rollback discipline: provided the pending vertices are distinct and
still uncolored, a search call leaves the partial coloring exactly as it
found it. -/
theorem backtrack_restores (g : Graph) :
    ∀ (rest : List Nat) (col : Coloring) (used : Nat) (best : Nat × Coloring),
      rest.Nodup → (∀ u ∈ rest, getColor col u = none) →
      (backtrack_coloring g rest col used best).1 = col := by
  intro rest
  induction rest with
  | nil =>
    intro col used best _ _
    rw [backtrack_nil]
    split <;> rfl
  | cons v rest ih =>
    intro col used best hnd hnone
    have hvnone : getColor col v = none := hnone v (List.mem_cons_self v rest)
    have hnd' : rest.Nodup := hnd.of_cons
    have hvrest : v ∉ rest := (List.nodup_cons.mp hnd).1
    have hsub : ∀ c, ∀ u ∈ rest, getColor (dinsert col v c) u = none := by
      intro c u hu
      have huv : u ≠ v := fun hh => hvrest (hh ▸ hu)
      rw [getColor_dinsert_ne col v c u huv]
      exact hnone u (List.mem_cons_of_mem v hu)
    rw [backtrack_cons]
    by_cases hpr : used ≥ best.1
    · simp only [if_pos hpr]
    · simp only [if_neg hpr]
      have hfold : ∀ (cs : List Nat) (st : Coloring × (Nat × Coloring)),
          st.1 = col → ((cs.foldl (tryStep g rest v used) st)).1 = col := by
        intro cs
        induction cs with
        | nil => intro st h; exact h
        | cons c cs ihc =>
          intro st h
          rw [List.foldl_cons]
          apply ihc
          unfold tryStep
          split
          · have hcols : ∀ u ∈ rest, getColor (dinsert st.1 v c) u = none := by
              rw [h]
              exact hsub c
            have hr : (backtrack_coloring g rest (dinsert st.1 v c) used st.2).1 =
                dinsert st.1 v c := ih _ _ _ hnd' hcols
            show derase (backtrack_coloring g rest (dinsert st.1 v c) used st.2).1 v = col
            rw [hr, h]
            exact derase_dinsert_cancel col v c hvnone
          · exact h
      set s1 := (List.range used).foldl (tryStep g rest v used) (col, best) with hs1
      have h1 : s1.1 = col := hfold _ _ rfl
      split
      · split
        · have hcols : ∀ u ∈ rest, getColor (dinsert s1.1 v used) u = none := by
            rw [h1]
            exact hsub used
          have hr : (backtrack_coloring g rest (dinsert s1.1 v used)
              (used + 1) s1.2).1 = dinsert s1.1 v used := ih _ _ _ hnd' hcols
          show derase (backtrack_coloring g rest (dinsert s1.1 v used)
              (used + 1) s1.2).1 v = col
          rw [hr, h1]
          exact derase_dinsert_cancel col v used hvnone
        · exact h1
      · exact h1

/-! ### Soundness of the branch-and-bound search -/

theorem is_color_valid_iff (g : Graph) (v c : Nat) (col : Coloring) :
    is_color_valid g v c col = true ↔
      ∀ u ∈ nbrsOf g v, getColor col u ≠ some c := by
  unfold is_color_valid
  rw [List.all_eq_true]
  constructor
  · intro h u hu
    have := h u hu
    simpa using this
  · intro h u hu
    simpa using h u hu

theorem nodup_split (done : List Nat) (v : Nat) (rest : List Nat)
    (h : (done ++ v :: rest).Nodup) :
    v ∉ done ∧ v ∉ rest ∧ rest.Nodup := by
  rw [List.nodup_append] at h
  obtain ⟨h1, h2, h3⟩ := h
  rw [List.nodup_cons] at h2
  refine ⟨?_, h2.1, h2.2⟩
  intro hv
  exact h3 hv (List.mem_cons_self v rest)

theorem numDistinct_of_inv (col : Coloring) (used : Nat)
    (hnd : (col.map Prod.fst).Nodup)
    (himg : ∀ c, (∃ u, getColor col u = some c) ↔ c < used) :
    numDistinct col = used := by
  have hfin : (col.map Prod.snd).toFinset = Finset.range used := by
    apply Finset.ext
    intro c
    rw [List.mem_toFinset, Finset.mem_range, value_mem_iff col hnd c]
    exact himg c
  unfold numDistinct
  rw [← List.card_toFinset, hfin, Finset.card_range]

/-- Extending the search invariant with an existing color `c < used` that
passes the neighbour check. -/
theorem searchinv_extend_old (g : Graph) (hwf : GraphWF g) (done : List Nat)
    (col : Coloring) (used v c : Nat) (hinv : SearchInv g done col used)
    (hvnone : getColor col v = none)
    (hval : ∀ u ∈ nbrsOf g v, getColor col u ≠ some c) (hc : c < used) :
    SearchInv g (done ++ [v]) (dinsert col v c) used := by
  obtain ⟨hnd, hdom, hprop, himg⟩ := hinv
  refine ⟨keys_dinsert_nodup col v c hnd hvnone, ?_, ?_, ?_⟩
  · intro u
    by_cases huv : u = v
    · subst huv
      simp [getColor_dinsert_self]
    · rw [getColor_dinsert_ne col v c u huv, hdom u]
      simp [List.mem_append, huv]
  · intro u cu w cw hu hw hadj
    by_cases huv : u = v
    · rw [huv, getColor_dinsert_self] at hu
      injection hu with hu
      by_cases hwv : w = v
      · rw [huv] at hadj
        rw [hwv] at hadj
        exact absurd hadj (wf_irrefl g hwf v)
      · rw [getColor_dinsert_ne col v c w hwv] at hw
        rw [huv] at hadj
        intro hcc
        exact hval w hadj (by rw [hw, ← hcc, hu])
    · rw [getColor_dinsert_ne col v c u huv] at hu
      by_cases hwv : w = v
      · rw [hwv, getColor_dinsert_self] at hw
        injection hw with hw
        have hadj' : u ∈ nbrsOf g v := wf_symm g hwf v u (hwv ▸ hadj)
        intro hcc
        exact hval u hadj' (by rw [hu, hcc, hw])
      · rw [getColor_dinsert_ne col v c w hwv] at hw
        exact hprop u cu w cw hu hw hadj
  · intro cc
    constructor
    · intro ⟨u, hu⟩
      by_cases huv : u = v
      · rw [huv, getColor_dinsert_self] at hu
        injection hu with hu
        omega
      · rw [getColor_dinsert_ne col v c u huv] at hu
        exact (himg cc).mp ⟨u, hu⟩
    · intro hlt
      obtain ⟨u, hu⟩ := (himg cc).mpr hlt
      have huv : u ≠ v := by
        intro hh
        rw [hh, hvnone] at hu
        exact Option.noConfusion hu
      exact ⟨u, by rw [getColor_dinsert_ne col v c u huv]; exact hu⟩

/-- Extending the search invariant with the fresh color `used`: the
invariant itself guarantees no neighbour can hold it. -/
theorem searchinv_extend_new (g : Graph) (hwf : GraphWF g) (done : List Nat)
    (col : Coloring) (used v : Nat) (hinv : SearchInv g done col used)
    (hvnone : getColor col v = none) :
    SearchInv g (done ++ [v]) (dinsert col v used) (used + 1) := by
  obtain ⟨hnd, hdom, hprop, himg⟩ := hinv
  have hval : ∀ u ∈ nbrsOf g v, getColor col u ≠ some used := by
    intro u _ hu
    have := (himg used).mp ⟨u, hu⟩
    omega
  refine ⟨keys_dinsert_nodup col v used hnd hvnone, ?_, ?_, ?_⟩
  · intro u
    by_cases huv : u = v
    · subst huv
      simp [getColor_dinsert_self]
    · rw [getColor_dinsert_ne col v used u huv, hdom u]
      simp [List.mem_append, huv]
  · intro u cu w cw hu hw hadj
    by_cases huv : u = v
    · rw [huv, getColor_dinsert_self] at hu
      injection hu with hu
      by_cases hwv : w = v
      · rw [huv] at hadj
        rw [hwv] at hadj
        exact absurd hadj (wf_irrefl g hwf v)
      · rw [getColor_dinsert_ne col v used w hwv] at hw
        rw [huv] at hadj
        intro hcc
        exact hval w hadj (by rw [hw, ← hcc, hu])
    · rw [getColor_dinsert_ne col v used u huv] at hu
      by_cases hwv : w = v
      · rw [hwv, getColor_dinsert_self] at hw
        injection hw with hw
        have hadj' : u ∈ nbrsOf g v := wf_symm g hwf v u (hwv ▸ hadj)
        intro hcc
        exact hval u hadj' (by rw [hu, hcc, hw])
      · rw [getColor_dinsert_ne col v used w hwv] at hw
        exact hprop u cu w cw hu hw hadj
  · intro cc
    constructor
    · intro ⟨u, hu⟩
      by_cases huv : u = v
      · rw [huv, getColor_dinsert_self] at hu
        injection hu with hu
        omega
      · rw [getColor_dinsert_ne col v used u huv] at hu
        have := (himg cc).mp ⟨u, hu⟩
        omega
    · intro hlt
      by_cases hcc : cc = used
      · exact ⟨v, by rw [hcc, getColor_dinsert_self]⟩
      · have : cc < used := by omega
        obtain ⟨u, hu⟩ := (himg cc).mpr this
        have huv : u ≠ v := by
          intro hh
          rw [hh, hvnone] at hu
          exact Option.noConfusion hu
        exact ⟨u, by rw [getColor_dinsert_ne col v used u huv]; exact hu⟩

/-- Soundness of `_backtrack_coloring`: the best record is either left
untouched or replaced by a strictly better proper total coloring whose
distinct-color count matches its stored count. -/
theorem backtrack_sound (g : Graph) (hwf : GraphWF g) (order : List Nat)
    (hordnd : order.Nodup) (hcov : ∀ u, u ∈ keys g → u ∈ order) :
    ∀ (rest done : List Nat) (col : Coloring) (used : Nat)
      (best : Nat × Coloring),
      order = done ++ rest → SearchInv g done col used →
      ((backtrack_coloring g rest col used best).2 = best ∨
        (GoodBest g (backtrack_coloring g rest col used best).2 ∧
          (backtrack_coloring g rest col used best).2.1 < best.1)) := by
  intro rest
  induction rest with
  | nil =>
    intro done col used best hord hinv
    rw [backtrack_nil]
    by_cases hlt : used < best.1
    · simp only [if_pos hlt]
      right
      obtain ⟨hnd, hdom, hprop, himg⟩ := hinv
      refine ⟨⟨hprop, ?_, ?_⟩, hlt⟩
      · intro u hu
        rw [hdom u]
        have := hcov u hu
        rw [hord] at this
        simpa using this
      · exact numDistinct_of_inv col used hnd himg
    · simp only [if_neg hlt]
      left
      trivial
  | cons v rest ih =>
    intro done col used best hord hinv
    have hnodups := nodup_split done v rest (hord ▸ hordnd)
    obtain ⟨hvdone, hvrest, hrestnd⟩ := hnodups
    have hvnone : getColor col v = none := by
      have := (hinv.2.1 v)
      rcases hcase : getColor col v with _ | c
      · rfl
      · exfalso
        apply hvdone
        rw [← this]
        simp [hcase]
    have hunass : ∀ u ∈ rest, getColor col u = none := by
      intro u hu
      rcases hcase : getColor col u with _ | c
      · rfl
      · exfalso
        have hin : u ∈ done := (hinv.2.1 u).mp (by simp [hcase])
        have : (done ++ v :: rest).Nodup := hord ▸ hordnd
        rw [List.nodup_append] at this
        exact this.2.2 hin (List.mem_cons_of_mem v hu)
    have hordv : order = (done ++ [v]) ++ rest := by
      rw [hord]
      simp
    rw [backtrack_cons]
    by_cases hpr : used ≥ best.1
    · simp only [if_pos hpr]
      left
      trivial
    · simp only [if_neg hpr]
      have hsub : ∀ c, ∀ u ∈ rest, getColor (dinsert col v c) u = none := by
        intro c u hu
        have huv : u ≠ v := fun hh => hvrest (hh ▸ hu)
        rw [getColor_dinsert_ne col v c u huv]
        exact hunass u hu
      have hfold : ∀ (cs : List Nat) (st : Coloring × (Nat × Coloring)),
          (∀ c ∈ cs, c < used) → st.1 = col →
          (st.2 = best ∨ (GoodBest g st.2 ∧ st.2.1 < best.1)) →
          ((cs.foldl (tryStep g rest v used) st).1 = col ∧
            ((cs.foldl (tryStep g rest v used) st).2 = best ∨
              (GoodBest g (cs.foldl (tryStep g rest v used) st).2 ∧
                (cs.foldl (tryStep g rest v used) st).2.1 < best.1))) := by
        intro cs
        induction cs with
        | nil => intro st _ h1 h2; exact ⟨h1, h2⟩
        | cons c cs ihc =>
          intro st hcs h1 h2
          rw [List.foldl_cons]
          apply ihc _ (fun c' hc' => hcs c' (List.mem_cons_of_mem c hc'))
          · unfold tryStep
            split
            · show derase (backtrack_coloring g rest (dinsert st.1 v c)
                used st.2).1 v = col
              have hr : (backtrack_coloring g rest (dinsert st.1 v c)
                  used st.2).1 = dinsert st.1 v c := by
                apply backtrack_restores g rest _ _ _ hrestnd
                rw [h1]
                exact hsub c
              rw [hr, h1]
              exact derase_dinsert_cancel col v c hvnone
            · exact h1
          · unfold tryStep
            split
            · rename_i hvalid
              show (backtrack_coloring g rest (dinsert st.1 v c) used st.2).2 = best ∨
                (GoodBest g (backtrack_coloring g rest (dinsert st.1 v c) used st.2).2 ∧
                  (backtrack_coloring g rest (dinsert st.1 v c) used st.2).2.1 < best.1)
              rw [h1] at hvalid ⊢
              have hinv' : SearchInv g (done ++ [v]) (dinsert col v c) used :=
                searchinv_extend_old g hwf done col used v c hinv hvnone
                  ((is_color_valid_iff g v c col).mp hvalid)
                  (hcs c (List.mem_cons_self c cs))
              have hr2 := ih (done ++ [v]) (dinsert col v c) used st.2 hordv hinv'
              rcases hr2 with hr2 | ⟨hgood, hlt2⟩
              · rw [hr2]
                exact h2
              · right
                refine ⟨hgood, ?_⟩
                rcases h2 with h2 | ⟨_, h2⟩
                · exact Nat.lt_of_lt_of_eq hlt2 (congrArg Prod.fst h2)
                · exact Nat.lt_trans hlt2 h2
            · exact h2
      have hall : ∀ c ∈ List.range used, c < used := by
        intro c hc
        exact List.mem_range.mp hc
      obtain ⟨hs1col, hs1inv⟩ := hfold (List.range used) (col, best) hall rfl
        (Or.inl rfl)
      set s1 := (List.range used).foldl (tryStep g rest v used) (col, best) with hs1
      by_cases hguard : used + 1 < s1.2.1
      · simp only [if_pos hguard]
        by_cases hvalid : is_color_valid g v used s1.1 = true
        · simp only [hvalid, if_true]
          have hinv' : SearchInv g (done ++ [v]) (dinsert s1.1 v used) (used + 1) := by
            rw [hs1col]
            exact searchinv_extend_new g hwf done col used v hinv hvnone
          have hr2 := ih (done ++ [v]) (dinsert s1.1 v used) (used + 1) s1.2
            hordv hinv'
          rcases hr2 with hr2 | ⟨hgood, hlt2⟩
          · rw [hr2]
            exact hs1inv
          · right
            refine ⟨hgood, ?_⟩
            rcases hs1inv with h2 | ⟨_, h2⟩
            · exact Nat.lt_of_lt_of_eq hlt2 (congrArg Prod.fst h2)
            · exact Nat.lt_trans hlt2 h2
        · simp only [hvalid]
          simpa using hs1inv
      · simp only [if_neg hguard]
        exact hs1inv

/-! ### First-use renaming (canonicalization) of a proper coloring -/

theorem getColor_append (rm l2 : List (Nat × Nat)) (x : Nat) :
    getColor (rm ++ l2) x =
      match getColor rm x with
      | some c => some c
      | none => getColor l2 x := by
  induction rm with
  | nil => simp [getColor]
  | cons p t ih =>
    obtain ⟨w, c⟩ := p
    by_cases hw : w = x
    · simp [getColor, hw]
    · simp only [List.cons_append, getColor, if_neg hw]
      exact ih

theorem getColor_append_left (rm l2 : List (Nat × Nat)) (x i : Nat)
    (h : getColor rm x = some i) : getColor (rm ++ l2) x = some i := by
  rw [getColor_append, h]

theorem canonMap_append (f : Nat → Nat) :
    ∀ (l1 l2 : List Nat) (rm : List (Nat × Nat)),
      canonMap f (l1 ++ l2) rm = canonMap f l2 (canonMap f l1 rm) := by
  intro l1
  induction l1 with
  | nil => intro l2 rm; rfl
  | cons v l1 ih =>
    intro l2 rm
    simp only [List.cons_append, canonMap]
    rcases getColor rm (f v) with _ | i
    · exact ih l2 _
    · exact ih l2 _

theorem canonMap_persist (f : Nat → Nat) :
    ∀ (rest : List Nat) (rm : List (Nat × Nat)) (x i : Nat),
      getColor rm x = some i → getColor (canonMap f rest rm) x = some i := by
  intro rest
  induction rest with
  | nil => intro rm x i h; exact h
  | cons v rest ih =>
    intro rm x i h
    simp only [canonMap]
    rcases hfv : getColor rm (f v) with _ | j
    · exact ih _ x i (getColor_append_left rm _ x i h)
    · exact ih _ x i h

theorem RMinv_canonMap (f : Nat → Nat) :
    ∀ (rest : List Nat) (rm : List (Nat × Nat)),
      RMinv rm → RMinv (canonMap f rest rm) := by
  intro rest
  induction rest with
  | nil => intro rm h; exact h
  | cons v rest ih =>
    intro rm h
    simp only [canonMap]
    rcases hfv : getColor rm (f v) with _ | j
    · apply ih
      constructor
      · rw [List.map_append]
        simp only [List.map_cons, List.map_nil]
        rw [List.nodup_append]
        refine ⟨h.1, List.nodup_singleton _, ?_⟩
        intro a ha hb
        simp only [List.mem_singleton] at hb
        subst hb
        exact not_mem_keys_of_getColor_none rm (f v) hfv ha
      · rw [List.map_append, List.length_append]
        simp only [List.map_cons, List.map_nil, List.length_cons, List.length_nil]
        rw [h.2, ← List.range_succ]
    · exact ih rm h

theorem getColor_bound (rm : List (Nat × Nat)) (hinv : RMinv rm) (x i : Nat)
    (h : getColor rm x = some i) : i < rm.length := by
  have hmem := mem_of_getColor_some rm x i h
  have : i ∈ rm.map Prod.snd := List.mem_map_of_mem Prod.snd hmem
  rw [hinv.2] at this
  exact List.mem_range.mp this

theorem snd_nodup_inj (rm : List (Nat × Nat)) (hnd : (rm.map Prod.snd).Nodup) :
    ∀ x y i, (x, i) ∈ rm → (y, i) ∈ rm → x = y := by
  induction rm with
  | nil => intro x y i hx; simp at hx
  | cons p t ih =>
    intro x y i hx hy
    obtain ⟨w, c⟩ := p
    simp only [List.map_cons, List.nodup_cons] at hnd
    rcases List.mem_cons.mp hx with hx | hx <;> rcases List.mem_cons.mp hy with hy | hy
    · rw [Prod.mk.injEq] at hx hy
      rw [hx.1, hy.1]
    · exfalso
      apply hnd.1
      rw [Prod.mk.injEq] at hx
      rw [← hx.2]
      exact List.mem_map_of_mem Prod.snd hy
    · exfalso
      apply hnd.1
      rw [Prod.mk.injEq] at hy
      rw [← hy.2]
      exact List.mem_map_of_mem Prod.snd hx
    · exact ih hnd.2 x y i hx hy

theorem rm_inj (rm : List (Nat × Nat)) (hinv : RMinv rm) (x y i : Nat)
    (hx : getColor rm x = some i) (hy : getColor rm y = some i) : x = y := by
  have hnd : (rm.map Prod.snd).Nodup := by
    rw [hinv.2]
    exact List.nodup_range _
  exact snd_nodup_inj rm hnd x y i (mem_of_getColor_some rm x i hx)
    (mem_of_getColor_some rm y i hy)

theorem canonMap_isSome_iff (f : Nat → Nat) :
    ∀ (rest : List Nat) (rm : List (Nat × Nat)) (x : Nat),
      (getColor (canonMap f rest rm) x).isSome ↔
        (getColor rm x).isSome ∨ ∃ v ∈ rest, f v = x := by
  intro rest
  induction rest with
  | nil => intro rm x; simp [canonMap]
  | cons v rest ih =>
    intro rm x
    simp only [canonMap]
    rcases hfv : getColor rm (f v) with _ | j
    · rw [ih]
      have happ : (getColor (rm ++ [(f v, rm.length)]) x).isSome ↔
          (getColor rm x).isSome ∨ x = f v := by
        rw [getColor_append]
        rcases hx : getColor rm x with _ | c
        · by_cases hxy : f v = x
          · simp [getColor, hxy]
          · have hxy' : ¬ x = f v := fun hh => hxy hh.symm
            simp [getColor, hxy, hxy']
        · simp
      rw [happ]
      constructor
      · intro hh
        rcases hh with (hh | hh) | ⟨w, hw1, hw2⟩
        · exact Or.inl hh
        · exact Or.inr ⟨v, List.mem_cons_self v rest, hh.symm⟩
        · exact Or.inr ⟨w, List.mem_cons_of_mem v hw1, hw2⟩
      · intro hh
        rcases hh with hh | ⟨w, hw1, hw2⟩
        · exact Or.inl (Or.inl hh)
        · rcases List.mem_cons.mp hw1 with hw | hw
          · exact Or.inl (Or.inr (hw ▸ hw2).symm)
          · exact Or.inr ⟨w, hw, hw2⟩
    · rw [ih]
      constructor
      · intro hh
        rcases hh with hh | ⟨w, hw1, hw2⟩
        · exact Or.inl hh
        · exact Or.inr ⟨w, List.mem_cons_of_mem v hw1, hw2⟩
      · intro hh
        rcases hh with hh | ⟨w, hw1, hw2⟩
        · exact Or.inl hh
        · rcases List.mem_cons.mp hw1 with hw | hw
          · left
            rw [← hw2, hw]
            simp [hfv]
          · exact Or.inr ⟨w, hw, hw2⟩

theorem canonFrom_canonize_aux (f : Nat → Nat) :
    ∀ (rest : List Nat) (rm : List (Nat × Nat)), RMinv rm →
      canonFrom (fun v => (getColor (canonMap f rest rm) (f v)).getD 0)
        rest rm.length := by
  intro rest
  induction rest with
  | nil => intro rm _; trivial
  | cons v rest ih =>
    intro rm hinv
    simp only [canonFrom, canonMap]
    rcases hfv : getColor rm (f v) with _ | j
    · right
      have hrm' : RMinv (rm ++ [(f v, rm.length)]) := by
        constructor
        · rw [List.map_append]
          simp only [List.map_cons, List.map_nil]
          rw [List.nodup_append]
          refine ⟨hinv.1, List.nodup_singleton _, ?_⟩
          intro a ha hb
          simp only [List.mem_singleton] at hb
          subst hb
          exact not_mem_keys_of_getColor_none rm (f v) hfv ha
        · rw [List.map_append, List.length_append]
          simp only [List.map_cons, List.map_nil, List.length_cons,
            List.length_nil]
          rw [hinv.2, ← List.range_succ]
      have hself : getColor (rm ++ [(f v, rm.length)]) (f v) = some rm.length := by
        rw [getColor_append, hfv]
        simp [getColor]
      constructor
      · rw [canonMap_persist f rest _ (f v) rm.length hself]
        rfl
      · have := ih (rm ++ [(f v, rm.length)]) hrm'
        rw [List.length_append] at this
        simpa using this
    · left
      constructor
      · rw [canonMap_persist f rest rm (f v) j hfv]
        exact getColor_bound rm hinv (f v) j hfv
      · exact ih rm hinv

/-- The canonized coloring walks the order introducing colors in first-use
order. -/
theorem canonFrom_canonize (f : Nat → Nat) (order : List Nat) :
    canonFrom (canonize f order) order 0 := by
  have := canonFrom_canonize_aux f order [] ⟨by simp, by simp⟩
  simpa [canonize] using this

theorem mem_keys_iff_isSome (col : Coloring) (x : Nat) :
    x ∈ col.map Prod.fst ↔ (getColor col x).isSome := by
  constructor
  · exact isSome_getColor_of_mem_keys col x
  · intro h
    rcases hx : getColor col x with _ | c
    · rw [hx] at h; simp at h
    · exact mem_keys_of_getColor_some col x c hx

theorem countOn_eq_card (f : Nat → Nat) (order : List Nat) :
    countOn f order = (order.map f).toFinset.card := by
  rw [countOn, List.card_toFinset]

theorem countOn_lower (f : Nat → Nat) (order : List Nat) (S : Finset Nat)
    (hS : ∀ c ∈ S, ∃ u ∈ order, f u = c) : S.card ≤ countOn f order := by
  rw [countOn_eq_card]
  apply Finset.card_le_card
  intro c hc
  rw [List.mem_toFinset, List.mem_map]
  obtain ⟨u, hu1, hu2⟩ := hS c hc
  exact ⟨u, hu1, hu2⟩

theorem rmlen_isSome (f : Nat → Nat) (order : List Nat) (x : Nat) :
    (getColor (canonMap f order []) x).isSome ↔ ∃ v ∈ order, f v = x := by
  rw [canonMap_isSome_iff]
  simp [getColor]

theorem countOn_eq_rmLength (f : Nat → Nat) (order : List Nat) :
    countOn f order = (canonMap f order []).length := by
  have hinv : RMinv (canonMap f order []) :=
    RMinv_canonMap f order [] ⟨by simp, by simp⟩
  have hfs : (order.map f).toFinset = ((canonMap f order []).map Prod.fst).toFinset := by
    apply Finset.ext
    intro x
    rw [List.mem_toFinset, List.mem_toFinset, List.mem_map,
      mem_keys_iff_isSome, rmlen_isSome]
  rw [countOn_eq_card, hfs, List.toFinset_card_of_nodup hinv.1, List.length_map]

theorem canonize_lt (f : Nat → Nat) (order : List Nat) (v : Nat)
    (hv : v ∈ order) : canonize f order v < countOn f order := by
  have hinv : RMinv (canonMap f order []) :=
    RMinv_canonMap f order [] ⟨by simp, by simp⟩
  have hs : (getColor (canonMap f order []) (f v)).isSome :=
    (rmlen_isSome f order (f v)).mpr ⟨v, hv, rfl⟩
  rcases hx : getColor (canonMap f order []) (f v) with _ | i
  · rw [hx] at hs; simp at hs
  · have : canonize f order v = i := by
      rw [canonize, hx]
      rfl
    rw [this, countOn_eq_rmLength]
    exact getColor_bound _ hinv (f v) i hx

theorem canonize_proper (g : Graph) (hwf : GraphWF g) (f : Nat → Nat)
    (order : List Nat) (hf : ProperFun g f) (hcov : ∀ u ∈ keys g, u ∈ order) :
    ProperFun g (canonize f order) := by
  intro u hu w hw
  have hinv : RMinv (canonMap f order []) :=
    RMinv_canonMap f order [] ⟨by simp, by simp⟩
  have hwk : w ∈ keys g := wf_closed g hwf w u hw
  have hfu : (getColor (canonMap f order []) (f u)).isSome :=
    (rmlen_isSome f order (f u)).mpr ⟨u, hcov u hu, rfl⟩
  have hfw : (getColor (canonMap f order []) (f w)).isSome :=
    (rmlen_isSome f order (f w)).mpr ⟨w, hcov w hwk, rfl⟩
  rcases hxu : getColor (canonMap f order []) (f u) with _ | i
  · rw [hxu] at hfu; simp at hfu
  rcases hxw : getColor (canonMap f order []) (f w) with _ | j
  · rw [hxw] at hfw; simp at hfw
  have hu' : canonize f order u = i := by rw [canonize, hxu]; rfl
  have hw' : canonize f order w = j := by rw [canonize, hxw]; rfl
  rw [hu', hw']
  intro hij
  subst hij
  exact hf u hu w hw (rm_inj _ hinv (f u) (f w) i hxu hxw)

theorem countOn_canonize (f : Nat → Nat) (order : List Nat) :
    countOn (canonize f order) order = countOn f order := by
  have hinv : RMinv (canonMap f order []) :=
    RMinv_canonMap f order [] ⟨by simp, by simp⟩
  have hfin : (order.map (canonize f order)).toFinset =
      Finset.range (canonMap f order []).length := by
    apply Finset.ext
    intro i
    rw [List.mem_toFinset, Finset.mem_range, List.mem_map]
    constructor
    · intro ⟨v, hv1, hv2⟩
      rw [← hv2]
      have := canonize_lt f order v hv1
      rw [countOn_eq_rmLength] at this
      exact this
    · intro hi
      have : i ∈ (canonMap f order []).map Prod.snd := by
        rw [hinv.2]
        exact List.mem_range.mpr hi
      obtain ⟨p, hp, hpi⟩ := List.mem_map.mp this
      have hgp : getColor (canonMap f order []) p.1 = some i := by
        have := getColor_of_mem _ p.1 p.2 hinv.1 hp
        rw [this, hpi]
      have hk : (getColor (canonMap f order []) p.1).isSome := by
        rw [hgp]; rfl
      obtain ⟨v, hv1, hv2⟩ := (rmlen_isSome f order p.1).mp hk
      refine ⟨v, hv1, ?_⟩
      rw [canonize, hv2, hgp]
      rfl
  rw [← countOn_eq_rmLength f order] at hfin
  rw [countOn_eq_card (canonize f order) order, hfin, Finset.card_range]

/-! ### Completeness of the branch-and-bound search -/

theorem tryfold_mono (g : Graph) (rest : List Nat) (v used : Nat) :
    ∀ (cs : List Nat) (st : Coloring × (Nat × Coloring)),
      ((cs.foldl (tryStep g rest v used) st)).2.1 ≤ st.2.1 := by
  intro cs
  induction cs with
  | nil => intro st; exact Nat.le_refl _
  | cons c cs ihc =>
    intro st
    rw [List.foldl_cons]
    refine Nat.le_trans (ihc _) ?_
    unfold tryStep
    split
    · exact backtrack_best_mono g rest _ _ _
    · exact Nat.le_refl _

/-- Completeness of `_backtrack_coloring`: the returned best count is at
most the color count of any first-use-canonical proper total coloring
extending the current partial coloring. -/
theorem backtrack_complete (g : Graph) (hwf : GraphWF g) (order : List Nat)
    (hordnd : order.Nodup) (hcov : ∀ u ∈ keys g, u ∈ order)
    (hmemk : ∀ u ∈ order, u ∈ keys g) :
    ∀ (rest done : List Nat) (col : Coloring) (used : Nat)
      (best : Nat × Coloring) (f : Nat → Nat),
      order = done ++ rest → SearchInv g done col used →
      (∀ u c, getColor col u = some c → f u = c) →
      ProperFun g f → canonFrom f rest used →
      (backtrack_coloring g rest col used best).2.1 ≤ countOn f order := by
  intro rest
  induction rest with
  | nil =>
    intro done col used best f hord hinv hagree hf hcanon
    have hk1 : used ≤ countOn f order := by
      have := countOn_lower f order (Finset.range used) ?_
      · simpa using this
      · intro c hc
        obtain ⟨u, hu⟩ := (hinv.2.2.2 c).mpr (Finset.mem_range.mp hc)
        have hud : u ∈ done := (hinv.2.1 u).mp (by simp [hu])
        exact ⟨u, by rw [hord]; simpa using hud, hagree u c hu⟩
    rw [backtrack_nil]
    split
    · exact hk1
    · rename_i hged
      show best.1 ≤ countOn f order
      omega
  | cons v rest ih =>
    intro done col used best f hord hinv hagree hf hcanon
    have hnodups := nodup_split done v rest (hord ▸ hordnd)
    obtain ⟨hvdone, hvrest, hrestnd⟩ := hnodups
    have hvnone : getColor col v = none := by
      rcases hcase : getColor col v with _ | c
      · rfl
      · exact absurd ((hinv.2.1 v).mp (by simp [hcase])) hvdone
    have hunass : ∀ u ∈ rest, getColor col u = none := by
      intro u hu
      rcases hcase : getColor col u with _ | c
      · rfl
      · exfalso
        have hin : u ∈ done := (hinv.2.1 u).mp (by simp [hcase])
        have hnd2 : (done ++ v :: rest).Nodup := hord ▸ hordnd
        rw [List.nodup_append] at hnd2
        exact hnd2.2.2 hin (List.mem_cons_of_mem v hu)
    have hordv : order = (done ++ [v]) ++ rest := by rw [hord]; simp
    have hvorder : v ∈ order := by rw [hord]; simp
    have hk1 : used ≤ countOn f order := by
      have := countOn_lower f order (Finset.range used) ?_
      · simpa using this
      · intro c hc
        obtain ⟨u, hu⟩ := (hinv.2.2.2 c).mpr (Finset.mem_range.mp hc)
        have hud : u ∈ done := (hinv.2.1 u).mp (by simp [hu])
        refine ⟨u, ?_, hagree u c hu⟩
        rw [hord]
        simp only [List.mem_append, List.mem_cons]
        exact Or.inl hud
    rw [backtrack_cons]
    by_cases hpr : used ≥ best.1
    · simp only [if_pos hpr]
      show best.1 ≤ countOn f order
      omega
    · simp only [if_neg hpr]
      simp only [canonFrom] at hcanon
      have hsub : ∀ c, ∀ u ∈ rest, getColor (dinsert col v c) u = none := by
        intro c u hu
        have huv : u ≠ v := fun hh => hvrest (hh ▸ hu)
        rw [getColor_dinsert_ne col v c u huv]
        exact hunass u hu
      rcases hcanon with ⟨hfv, hcanon'⟩ | ⟨hfv, hcanon'⟩
      · -- f reuses an existing color at v: the loop tries it
        have hvalid : is_color_valid g v (f v) col = true := by
          rw [is_color_valid_iff]
          intro u hu hcu
          have hfu : f u = f v := hagree u (f v) hcu
          exact hf v (hmemk v hvorder) u hu hfu.symm
        have hagree' : ∀ u c0, getColor (dinsert col v (f v)) u = some c0 →
            f u = c0 := by
          intro u c0 hu
          by_cases huv : u = v
          · rw [huv, getColor_dinsert_self] at hu
            injection hu with hu
            rw [huv, hu]
          · rw [getColor_dinsert_ne col v (f v) u huv] at hu
            exact hagree u c0 hu
        have hfold : ∀ (cs : List Nat) (st : Coloring × (Nat × Coloring)),
            st.1 = col → f v ∈ cs → (∀ c ∈ cs, c < used) →
            ((cs.foldl (tryStep g rest v used) st)).2.1 ≤ countOn f order := by
          intro cs
          induction cs with
          | nil => intro st _ hmem _; simp at hmem
          | cons c cs ihc =>
            intro st hst hmem hlt
            rw [List.foldl_cons]
            by_cases hcfv : c = f v
            · -- this iteration explores the branch matching f
              have hstep : (tryStep g rest v used st c).2.1 ≤ countOn f order := by
                unfold tryStep
                rw [hst, hcfv]
                simp only [hvalid, if_true]
                have hinv' : SearchInv g (done ++ [v]) (dinsert col v (f v)) used :=
                  searchinv_extend_old g hwf done col used v (f v) hinv hvnone
                    ((is_color_valid_iff g v (f v) col).mp hvalid) hfv
                exact ih (done ++ [v]) (dinsert col v (f v)) used st.2 f hordv
                  hinv' hagree' hf hcanon'
              refine Nat.le_trans (tryfold_mono g rest v used cs _) ?_
              exact hstep
            · apply ihc
              · unfold tryStep
                split
                · show derase (backtrack_coloring g rest (dinsert st.1 v c)
                    used st.2).1 v = col
                  have hr : (backtrack_coloring g rest (dinsert st.1 v c)
                      used st.2).1 = dinsert st.1 v c := by
                    apply backtrack_restores g rest _ _ _ hrestnd
                    rw [hst]
                    exact hsub c
                  rw [hr, hst]
                  exact derase_dinsert_cancel col v c hvnone
                · exact hst
              · rcases List.mem_cons.mp hmem with hm | hm
                · exact absurd hm.symm hcfv
                · exact hm
              · intro c' hc'
                exact hlt c' (List.mem_cons_of_mem c hc')
        have hs1 := hfold (List.range used) (col, best) rfl
          (List.mem_range.mpr hfv) (fun c hc => List.mem_range.mp hc)
        set s1 := (List.range used).foldl (tryStep g rest v used) (col, best)
        split
        · split
          · exact Nat.le_trans (backtrack_best_mono g rest _ _ _) hs1
          · exact hs1
        · exact hs1
      · -- f introduces the new color used at v
        have hfoldcol : ((List.range used).foldl (tryStep g rest v used)
            (col, best)).1 = col := by
          have hfold : ∀ (cs : List Nat) (st : Coloring × (Nat × Coloring)),
              st.1 = col → ((cs.foldl (tryStep g rest v used) st)).1 = col := by
            intro cs
            induction cs with
            | nil => intro st h; exact h
            | cons c cs ihc =>
              intro st h
              rw [List.foldl_cons]
              apply ihc
              unfold tryStep
              split
              · show derase (backtrack_coloring g rest (dinsert st.1 v c)
                  used st.2).1 v = col
                have hr : (backtrack_coloring g rest (dinsert st.1 v c)
                    used st.2).1 = dinsert st.1 v c := by
                  apply backtrack_restores g rest _ _ _ hrestnd
                  rw [h]
                  exact hsub c
                rw [hr, h]
                exact derase_dinsert_cancel col v c hvnone
              · exact h
          exact hfold _ _ rfl
        have hk2 : used + 1 ≤ countOn f order := by
          have := countOn_lower f order (Finset.range (used + 1)) ?_
          · simpa using this
          · intro c hc
            have hcl : c < used + 1 := Finset.mem_range.mp hc
            by_cases hcv : c = used
            · exact ⟨v, hvorder, by rw [hfv, hcv]⟩
            · have : c < used := by omega
              obtain ⟨u, hu⟩ := (hinv.2.2.2 c).mpr this
              have hud : u ∈ done := (hinv.2.1 u).mp (by simp [hu])
              refine ⟨u, ?_, hagree u c hu⟩
              rw [hord]
              simp only [List.mem_append, List.mem_cons]
              exact Or.inl hud
        set s1 := (List.range used).foldl (tryStep g rest v used) (col, best)
          with hs1def
        by_cases hguard : used + 1 < s1.2.1
        · simp only [if_pos hguard]
          have hvalid : is_color_valid g v used s1.1 = true := by
            rw [hs1def, hfoldcol]
            rw [is_color_valid_iff]
            intro u hu hcu
            have := (hinv.2.2.2 used).mp ⟨u, hcu⟩
            omega
          simp only [hvalid, if_true]
          have hagree' : ∀ u c0, getColor (dinsert s1.1 v used) u = some c0 →
              f u = c0 := by
            rw [hs1def, hfoldcol]
            intro u c0 hu
            by_cases huv : u = v
            · rw [huv, getColor_dinsert_self] at hu
              injection hu with hu
              rw [huv, hfv]
              exact hu
            · rw [getColor_dinsert_ne col v used u huv] at hu
              exact hagree u c0 hu
          have hinv' : SearchInv g (done ++ [v]) (dinsert s1.1 v used)
              (used + 1) := by
            rw [hs1def, hfoldcol]
            exact searchinv_extend_new g hwf done col used v hinv hvnone
          exact ih (done ++ [v]) (dinsert s1.1 v used) (used + 1) s1.2 f hordv
            hinv' hagree' hf hcanon'
        · simp only [if_neg hguard]
          omega

/-! ### Assembling the two directions for the full solver -/

theorem find1_empty : find_minimum_vertex_coloring [] = (0, []) := rfl

theorem find1_eq (g : Graph) (hne : ¬ g.isEmpty) :
    find_minimum_vertex_coloring g =
      (backtrack_coloring g (order_vertices_by_degree g) [] 0
        (greedy_coloring g (order_vertices_by_degree g))).2 := by
  rw [find_minimum_vertex_coloring]
  simp [hne]

theorem searchinv_init (g : Graph) : SearchInv g [] [] 0 := by
  refine ⟨by simp, ?_, ?_, ?_⟩
  · intro u
    simp [getColor]
  · intro u c w c' h
    simp [getColor] at h
  · intro c
    constructor
    · intro ⟨u, hu⟩
      simp [getColor] at hu
    · intro h
      omega

theorem properFun_of_dict (g : Graph) (hwf : GraphWF g) (col : Coloring)
    (hp : ProperColoring g col) (ht : TotalColoring g col) :
    ProperFun g (fun u => (getColor col u).getD 0) := by
  intro u hu w hw
  have hwk : w ∈ keys g := wf_closed g hwf w u hw
  have hu2 := ht u hu
  have hw2 := ht w hwk
  rcases hcu : getColor col u with _ | cu
  · rw [hcu] at hu2; simp at hu2
  rcases hcw : getColor col w with _ | cw
  · rw [hcw] at hw2; simp at hw2
  show (getColor col u).getD 0 ≠ (getColor col w).getD 0
  rw [hcu, hcw]
  simpa using hp u cu w cw hcu hcw hw

theorem countOn_dict_le (g : Graph) (col : Coloring)
    (ht : TotalColoring g col) :
    countOn (fun u => (getColor col u).getD 0) (keys g) ≤ numDistinct col := by
  rw [countOn_eq_card]
  have : numDistinct col = (col.map Prod.snd).toFinset.card := by
    rw [numDistinct, List.card_toFinset]
  rw [this]
  apply Finset.card_le_card
  intro c hc
  rw [List.mem_toFinset, List.mem_map] at hc
  obtain ⟨u, hu1, hu2⟩ := hc
  have hsome := ht u hu1
  rcases hcu : getColor col u with _ | cu
  · rw [hcu] at hsome; simp at hsome
  · rw [hcu] at hu2
    simp only [Option.getD_some] at hu2
    subst hu2
    rw [List.mem_toFinset]
    exact snd_mem_of_getColor_some col u _ hcu

theorem countOn_perm (f : Nat → Nat) (l1 l2 : List Nat) (h : l1.Perm l2) :
    countOn f l1 = countOn f l2 := by
  rw [countOn_eq_card, countOn_eq_card,
    List.toFinset_eq_of_perm _ _ (h.map f)]

/-- The full solver's result record, for a nonempty well-formed graph, is
always a good record (proper, total, count = distinct count). -/
theorem find1_good (g : Graph) (hwf : GraphWF g) (hne : ¬ g.isEmpty) :
    GoodBest g (find_minimum_vertex_coloring g) := by
  rw [find1_eq g hne]
  have hordnd := order_nodup g hwf.1
  have hcov : ∀ u ∈ keys g, u ∈ order_vertices_by_degree g :=
    fun u hu => (mem_order_iff g u).mpr hu
  have hseed := greedy_seed_good g hwf (order_vertices_by_degree g) hordnd hcov hne
  have hA := backtrack_sound g hwf (order_vertices_by_degree g) hordnd hcov
    (order_vertices_by_degree g) [] [] 0
    (greedy_coloring g (order_vertices_by_degree g)) (by simp)
    (searchinv_init g)
  rcases hA with hA | ⟨hA, _⟩
  · rw [hA]
    exact ⟨hseed.1, hseed.2.1, hseed.2.2⟩
  · exact hA

/-- The full solver's color count is minimal among proper total dict
colorings. -/
theorem find1_min (g : Graph) (hwf : GraphWF g) (hne : ¬ g.isEmpty)
    (col' : Coloring) (hp : ProperColoring g col') (ht : TotalColoring g col') :
    (find_minimum_vertex_coloring g).1 ≤ numDistinct col' := by
  rw [find1_eq g hne]
  have hordnd := order_nodup g hwf.1
  have hcov : ∀ u ∈ keys g, u ∈ order_vertices_by_degree g :=
    fun u hu => (mem_order_iff g u).mpr hu
  have hmemk : ∀ u ∈ order_vertices_by_degree g, u ∈ keys g :=
    fun u hu => (mem_order_iff g u).mp hu
  set ord := order_vertices_by_degree g
  set f0 : Nat → Nat := fun u => (getColor col' u).getD 0 with hf0def
  have hf0 : ProperFun g f0 := properFun_of_dict g hwf col' hp ht
  have hfC : ProperFun g (canonize f0 ord) := canonize_proper g hwf f0 ord hf0 hcov
  have hL := backtrack_complete g hwf ord hordnd hcov hmemk ord [] [] 0
    (greedy_coloring g ord) (canonize f0 ord) (by simp) (searchinv_init g)
    (fun u c h => by simp [getColor] at h) hfC (canonFrom_canonize f0 ord)
  refine Nat.le_trans hL ?_
  rw [countOn_canonize f0 ord]
  rw [countOn_perm f0 ord (keys g) (order_perm_keys g)]
  exact countOn_dict_le g col' ht

/-- The full solver computes the chromatic number (attained minimum of
distinct-color counts over proper total colorings). -/
theorem find1_isOptimal (g : Graph) (hwf : GraphWF g) :
    IsOptimal g (find_minimum_vertex_coloring g).1 := by
  by_cases hne : g.isEmpty
  · have hg : g = [] := by
      cases g
      · rfl
      · simp at hne
    subst hg
    rw [find1_empty]
    constructor
    · refine ⟨[], ?_, ?_, rfl⟩
      · intro u c w c' h
        simp [getColor] at h
      · intro u hu
        simp [keys] at hu
    · intro col _ _
      exact Nat.zero_le _
  · constructor
    · refine ⟨(find_minimum_vertex_coloring g).2, ?_⟩
      have := find1_good g hwf hne
      exact ⟨this.1, this.2.1, this.2.2⟩
    · intro col hp ht
      exact find1_min g hwf hne col hp ht

theorem isOptimal_unique (g : Graph) (a b : Nat) (ha : IsOptimal g a)
    (hb : IsOptimal g b) : a = b := by
  obtain ⟨⟨cola, hpa, hta, hna⟩, hmina⟩ := ha
  obtain ⟨⟨colb, hpb, htb, hnb⟩, hminb⟩ := hb
  have h1 : a ≤ numDistinct colb := hmina colb hpb htb
  have h2 : b ≤ numDistinct cola := hminb cola hpa hta
  omega

theorem find1_le_greedy (g : Graph) :
    (find_minimum_vertex_coloring g).1 ≤
      (greedy_coloring g (order_vertices_by_degree g)).1 := by
  by_cases hne : g.isEmpty
  · have hg : g = [] := by
      cases g
      · rfl
      · simp at hne
    subst hg
    simp [find1_empty, greedy_coloring]
  · rw [find1_eq g hne]
    exact backtrack_best_mono g _ _ _ _

end MVC

namespace Exact2

open MVC

/-! ### The iterative-deepening solver: unfolding and rollback -/

theorem btk_nil (g : Graph) (col : Coloring) (k : Nat) :
    backtrack_with_k_colors g [] col k = (col, true) := rfl

theorem btk_cons (g : Graph) (v : Nat) (rest : List Nat) (col : Coloring)
    (k : Nat) :
    backtrack_with_k_colors g (v :: rest) col k =
      (List.range k).foldl (btkStep g rest v k) (col, false) := rfl

theorem is_safe_iff (g : Graph) (v : Nat) (col : Coloring) (c : Nat) :
    is_safe_to_color g v col c = true ↔
      ∀ u ∈ nbrsOf g v, getColor col u ≠ some c := by
  unfold is_safe_to_color
  rw [List.all_eq_true]
  constructor
  · intro h u hu
    have := h u hu
    simpa using this
  · intro h u hu
    simpa using h u hu

theorem btkfold_pass (g : Graph) (rest : List Nat) (v k : Nat) :
    ∀ (cs : List Nat) (st : Coloring × Bool), st.2 = true →
      cs.foldl (btkStep g rest v k) st = st := by
  intro cs
  induction cs with
  | nil => intro st _; rfl
  | cons c cs ihc =>
    intro st h
    rw [List.foldl_cons]
    have hstep : btkStep g rest v k st c = st := by
      unfold btkStep
      rw [h]
      simp
    rw [hstep]
    exact ihc st h

/-- If the plain backtracking fails, it restores the coloring it was
given. -/
theorem btk_restores (g : Graph) :
    ∀ (rest : List Nat) (col : Coloring) (k : Nat),
      rest.Nodup → (∀ u ∈ rest, getColor col u = none) →
      (backtrack_with_k_colors g rest col k).2 = false →
      (backtrack_with_k_colors g rest col k).1 = col := by
  intro rest
  induction rest with
  | nil =>
    intro col k _ _ hflag
    rw [btk_nil] at hflag
    simp at hflag
  | cons v rest ih =>
    intro col k hnd hnone
    have hvnone : getColor col v = none := hnone v (List.mem_cons_self v rest)
    have hnd' : rest.Nodup := hnd.of_cons
    have hvrest : v ∉ rest := (List.nodup_cons.mp hnd).1
    have hsub : ∀ c, ∀ u ∈ rest, getColor (dinsert col v c) u = none := by
      intro c u hu
      have huv : u ≠ v := fun hh => hvrest (hh ▸ hu)
      rw [getColor_dinsert_ne col v c u huv]
      exact hnone u (List.mem_cons_of_mem v hu)
    rw [btk_cons]
    have hfold : ∀ (cs : List Nat) (st : Coloring × Bool),
        (st.2 = false → st.1 = col) →
        ((cs.foldl (btkStep g rest v k) st).2 = false →
          (cs.foldl (btkStep g rest v k) st).1 = col) := by
      intro cs
      induction cs with
      | nil => intro st h; exact h
      | cons c cs ihc =>
        intro st h
        rw [List.foldl_cons]
        apply ihc
        intro hflag2
        rcases hst2 : st.2 with _ | _
        · have hstcol : st.1 = col := h hst2
          by_cases hsafe : is_safe_to_color g v st.1 c = true
          · rcases hr2 : (backtrack_with_k_colors g rest (dinsert st.1 v c) k).2
              with _ | _
            · have hstep : btkStep g rest v k st c =
                  (derase (backtrack_with_k_colors g rest
                    (dinsert st.1 v c) k).1 v, false) := by
                simp [btkStep, hst2, hsafe, hr2]
              rw [hstep]
              have hr1 : (backtrack_with_k_colors g rest (dinsert st.1 v c) k).1 =
                  dinsert st.1 v c := by
                apply ih (dinsert st.1 v c) k hnd' _ hr2
                rw [hstcol]
                exact hsub c
              show derase (backtrack_with_k_colors g rest
                (dinsert st.1 v c) k).1 v = col
              rw [hr1, hstcol]
              exact derase_dinsert_cancel col v c hvnone
            · have hstep : btkStep g rest v k st c =
                  ((backtrack_with_k_colors g rest (dinsert st.1 v c) k).1,
                    true) := by
                simp [btkStep, hst2, hsafe, hr2]
              rw [hstep] at hflag2
              simp at hflag2
          · have hstep : btkStep g rest v k st c = st := by
              simp [btkStep, hst2, hsafe]
            rw [hstep]
            exact h hst2
        · have hstep : btkStep g rest v k st c = st := by
            simp [btkStep, hst2]
          rw [hstep] at hflag2 ⊢
          exact h hflag2
    exact hfold (List.range k) (col, false) (fun _ => rfl)

/-- Extending the `backtrack_with_k_colors` invariant with a safe color
`c < k`. -/
theorem searchinv2_extend (g : Graph) (hwf : GraphWF g) (done : List Nat)
    (col : Coloring) (k v c : Nat) (hinv : SearchInv2 g done col k)
    (hvnone : getColor col v = none)
    (hval : ∀ u ∈ nbrsOf g v, getColor col u ≠ some c) (hc : c < k) :
    SearchInv2 g (done ++ [v]) (dinsert col v c) k := by
  obtain ⟨hnd, hdom, hprop, hbound⟩ := hinv
  refine ⟨keys_dinsert_nodup col v c hnd hvnone, ?_, ?_, ?_⟩
  · intro u
    by_cases huv : u = v
    · subst huv
      simp [getColor_dinsert_self]
    · rw [getColor_dinsert_ne col v c u huv, hdom u]
      simp [List.mem_append, huv]
  · intro u cu w cw hu hw hadj
    by_cases huv : u = v
    · rw [huv, getColor_dinsert_self] at hu
      injection hu with hu
      by_cases hwv : w = v
      · rw [huv] at hadj
        rw [hwv] at hadj
        exact absurd hadj (wf_irrefl g hwf v)
      · rw [getColor_dinsert_ne col v c w hwv] at hw
        rw [huv] at hadj
        intro hcc
        exact hval w hadj (by rw [hw, ← hcc, hu])
    · rw [getColor_dinsert_ne col v c u huv] at hu
      by_cases hwv : w = v
      · rw [hwv, getColor_dinsert_self] at hw
        injection hw with hw
        have hadj' : u ∈ nbrsOf g v := wf_symm g hwf v u (hwv ▸ hadj)
        intro hcc
        exact hval u hadj' (by rw [hu, hcc, hw])
      · rw [getColor_dinsert_ne col v c w hwv] at hw
        exact hprop u cu w cw hu hw hadj
  · intro u cu hu
    by_cases huv : u = v
    · rw [huv, getColor_dinsert_self] at hu
      injection hu with hu
      omega
    · rw [getColor_dinsert_ne col v c u huv] at hu
      exact hbound u cu hu

/-- Soundness of `backtrack_with_k_colors`: a successful call extends the
invariant coloring to cover all remaining vertices, properly, using only
colors `< k`. -/
theorem btk_sound (g : Graph) (hwf : GraphWF g) (order : List Nat)
    (hordnd : order.Nodup) :
    ∀ (rest done : List Nat) (col : Coloring) (k : Nat),
      order = done ++ rest → SearchInv2 g done col k →
      (backtrack_with_k_colors g rest col k).2 = true →
      SearchInv2 g (done ++ rest) (backtrack_with_k_colors g rest col k).1 k := by
  intro rest
  induction rest with
  | nil =>
    intro done col k _ hinv _
    rw [btk_nil]
    rw [List.append_nil]
    exact hinv
  | cons v rest ih =>
    intro done col k hord hinv hflag
    have hnodups := nodup_split done v rest (hord ▸ hordnd)
    obtain ⟨hvdone, hvrest, hrestnd⟩ := hnodups
    have hvnone : getColor col v = none := by
      rcases hcase : getColor col v with _ | c
      · rfl
      · exact absurd ((hinv.2.1 v).mp (by simp [hcase])) hvdone
    have hunass : ∀ u ∈ rest, getColor col u = none := by
      intro u hu
      rcases hcase : getColor col u with _ | c
      · rfl
      · exfalso
        have hin : u ∈ done := (hinv.2.1 u).mp (by simp [hcase])
        have hnd2 : (done ++ v :: rest).Nodup := hord ▸ hordnd
        rw [List.nodup_append] at hnd2
        exact hnd2.2.2 hin (List.mem_cons_of_mem v hu)
    have hordv : order = (done ++ [v]) ++ rest := by rw [hord]; simp
    have happrw : (done ++ [v]) ++ rest = done ++ v :: rest := by simp
    have hsub : ∀ c, ∀ u ∈ rest, getColor (dinsert col v c) u = none := by
      intro c u hu
      have huv : u ≠ v := fun hh => hvrest (hh ▸ hu)
      rw [getColor_dinsert_ne col v c u huv]
      exact hunass u hu
    rw [btk_cons] at hflag ⊢
    have hfold : ∀ (cs : List Nat) (st : Coloring × Bool),
        (∀ c ∈ cs, c < k) → (st.2 = false → st.1 = col) →
        (st.2 = true → SearchInv2 g (done ++ v :: rest) st.1 k) →
        (((cs.foldl (btkStep g rest v k) st).2 = true →
            SearchInv2 g (done ++ v :: rest)
              (cs.foldl (btkStep g rest v k) st).1 k) ∧
          ((cs.foldl (btkStep g rest v k) st).2 = false →
            (cs.foldl (btkStep g rest v k) st).1 = col)) := by
      intro cs
      induction cs with
      | nil => intro st _ h1 h2; exact ⟨h2, h1⟩
      | cons c cs ihc =>
        intro st hcs h1 h2
        rw [List.foldl_cons]
        rcases hst2 : st.2 with _ | _
        · have hstcol : st.1 = col := h1 hst2
          by_cases hsafe : is_safe_to_color g v st.1 c = true
          · rcases hr2 : (backtrack_with_k_colors g rest (dinsert st.1 v c) k).2
              with _ | _
            · have hstep : btkStep g rest v k st c =
                  (derase (backtrack_with_k_colors g rest
                    (dinsert st.1 v c) k).1 v, false) := by
                simp [btkStep, hst2, hsafe, hr2]
              rw [hstep]
              apply ihc _ (fun c' hc' => hcs c' (List.mem_cons_of_mem c hc'))
              · intro _
                have hr1 : (backtrack_with_k_colors g rest
                    (dinsert st.1 v c) k).1 = dinsert st.1 v c := by
                  apply btk_restores g rest (dinsert st.1 v c) k hrestnd _ hr2
                  rw [hstcol]
                  exact hsub c
                show derase (backtrack_with_k_colors g rest
                  (dinsert st.1 v c) k).1 v = col
                rw [hr1, hstcol]
                exact derase_dinsert_cancel col v c hvnone
              · intro hh
                simp at hh
            · have hstep : btkStep g rest v k st c =
                  ((backtrack_with_k_colors g rest (dinsert st.1 v c) k).1,
                    true) := by
                simp [btkStep, hst2, hsafe, hr2]
              rw [hstep]
              apply ihc _ (fun c' hc' => hcs c' (List.mem_cons_of_mem c hc'))
              · intro hh
                simp at hh
              · intro _
                rw [hstcol] at hsafe
                have hinv' : SearchInv2 g (done ++ [v]) (dinsert col v c) k :=
                  searchinv2_extend g hwf done col k v c hinv hvnone
                    ((is_safe_iff g v col c).mp hsafe)
                    (hcs c (List.mem_cons_self c cs))
                have := ih (done ++ [v]) (dinsert col v c) k hordv hinv'
                  (by rw [hstcol] at hr2; exact hr2)
                rw [happrw] at this
                show SearchInv2 g (done ++ v :: rest)
                  (backtrack_with_k_colors g rest (dinsert st.1 v c) k).1 k
                rw [hstcol]
                exact this
          · have hstep : btkStep g rest v k st c = st := by
              simp [btkStep, hst2, hsafe]
            rw [hstep]
            exact ihc _ (fun c' hc' => hcs c' (List.mem_cons_of_mem c hc')) h1 h2
        · have hstep : btkStep g rest v k st c = st := by
            simp [btkStep, hst2]
          rw [hstep]
          exact ihc _ (fun c' hc' => hcs c' (List.mem_cons_of_mem c hc')) h1 h2
    have := hfold (List.range k) (col, false)
      (fun c hc => List.mem_range.mp hc) (fun _ => rfl)
      (fun hh => absurd hh (by simp))
    exact this.1 hflag

/-- Completeness of `backtrack_with_k_colors`: if some proper coloring
function assigns every remaining vertex a color `< k` compatibly with the
current partial coloring, the search succeeds. -/
theorem btk_complete (g : Graph) (hwf : GraphWF g) :
    ∀ (rest : List Nat) (col : Coloring) (k : Nat) (f : Nat → Nat),
      rest.Nodup → (∀ u ∈ rest, getColor col u = none) →
      (∀ u ∈ rest, u ∈ keys g) →
      (∀ u c, getColor col u = some c → f u = c) →
      ProperFun g f → (∀ u ∈ rest, f u < k) →
      (backtrack_with_k_colors g rest col k).2 = true := by
  intro rest
  induction rest with
  | nil =>
    intro col k f _ _ _ _ _ _
    rw [btk_nil]
  | cons v rest ih =>
    intro col k f hnd hnone hkeys hagree hf hbound
    have hvnone : getColor col v = none := hnone v (List.mem_cons_self v rest)
    have hnd' : rest.Nodup := hnd.of_cons
    have hvrest : v ∉ rest := (List.nodup_cons.mp hnd).1
    have hvkey : v ∈ keys g := hkeys v (List.mem_cons_self v rest)
    have hsub : ∀ c, ∀ u ∈ rest, getColor (dinsert col v c) u = none := by
      intro c u hu
      have huv : u ≠ v := fun hh => hvrest (hh ▸ hu)
      rw [getColor_dinsert_ne col v c u huv]
      exact hnone u (List.mem_cons_of_mem v hu)
    have hsafe : is_safe_to_color g v col (f v) = true := by
      rw [is_safe_iff]
      intro u hu hcu
      have hfu : f u = f v := hagree u (f v) hcu
      exact hf v hvkey u hu hfu.symm
    have hagree' : ∀ u c0, getColor (dinsert col v (f v)) u = some c0 →
        f u = c0 := by
      intro u c0 hu
      by_cases huv : u = v
      · rw [huv, getColor_dinsert_self] at hu
        injection hu with hu
        rw [huv]
        exact hu
      · rw [getColor_dinsert_ne col v (f v) u huv] at hu
        exact hagree u c0 hu
    rw [btk_cons]
    have hfold : ∀ (cs : List Nat) (st : Coloring × Bool),
        (st.2 = false → st.1 = col) → f v ∈ cs →
        ((cs.foldl (btkStep g rest v k) st).2 = true) ∨ st.2 = true := by
      intro cs
      induction cs with
      | nil => intro st _ hmem; simp at hmem
      | cons c cs ihc =>
        intro st h1 hmem
        rcases hst2 : st.2 with _ | _
        · left
          rw [List.foldl_cons]
          have hstcol : st.1 = col := h1 hst2
          by_cases hcfv : c = f v
          · -- this iteration matches f and must succeed
            have hsafe' : is_safe_to_color g v st.1 c = true := by
              rw [hstcol, hcfv]
              exact hsafe
            have hr2 : (backtrack_with_k_colors g rest (dinsert st.1 v c) k).2
                = true := by
              rw [hstcol, hcfv]
              apply ih (dinsert col v (f v)) k f hnd' (hsub (f v))
                (fun u hu => hkeys u (List.mem_cons_of_mem v hu)) hagree' hf
                (fun u hu => hbound u (List.mem_cons_of_mem v hu))
            have hstep : btkStep g rest v k st c =
                ((backtrack_with_k_colors g rest (dinsert st.1 v c) k).1,
                  true) := by
              simp [btkStep, hst2, hsafe', hr2]
            rw [hstep, btkfold_pass g rest v k cs _ rfl]
          · by_cases hsafe' : is_safe_to_color g v st.1 c = true
            · rcases hr2 : (backtrack_with_k_colors g rest (dinsert st.1 v c) k).2
                with _ | _
              · have hstep : btkStep g rest v k st c =
                    (derase (backtrack_with_k_colors g rest
                      (dinsert st.1 v c) k).1 v, false) := by
                  simp [btkStep, hst2, hsafe', hr2]
                rw [hstep]
                have hr1 : (backtrack_with_k_colors g rest
                    (dinsert st.1 v c) k).1 = dinsert st.1 v c := by
                  apply btk_restores g rest (dinsert st.1 v c) k hnd' _ hr2
                  rw [hstcol]
                  exact hsub c
                have hnewcol : derase (backtrack_with_k_colors g rest
                    (dinsert st.1 v c) k).1 v = col := by
                  rw [hr1, hstcol]
                  exact derase_dinsert_cancel col v c hvnone
                have hmem' : f v ∈ cs := by
                  rcases List.mem_cons.mp hmem with hm | hm
                  · exact absurd hm.symm hcfv
                  · exact hm
                rcases ihc (derase (backtrack_with_k_colors g rest
                    (dinsert st.1 v c) k).1 v, false) (fun _ => hnewcol) hmem'
                  with hh | hh
                · exact hh
                · simp at hh
              · have hstep : btkStep g rest v k st c =
                    ((backtrack_with_k_colors g rest (dinsert st.1 v c) k).1,
                      true) := by
                  simp [btkStep, hst2, hsafe', hr2]
                rw [hstep, btkfold_pass g rest v k cs _ rfl]
            · have hstep : btkStep g rest v k st c = st := by
                simp [btkStep, hst2, hsafe']
              rw [hstep]
              have hmem' : f v ∈ cs := by
                rcases List.mem_cons.mp hmem with hm | hm
                · exact absurd hm.symm hcfv
                · exact hm
              rcases ihc st h1 hmem' with hh | hh
              · exact hh
              · rw [hst2] at hh
                simp at hh
        · right
          rfl
    have hfin := hfold (List.range k) (col, false) (fun _ => rfl)
      (List.mem_range.mpr (hbound v (List.mem_cons_self v rest)))
    rcases hfin with hh | hh
    · exact hh
    · simp at hh

/-! ### The iterative-deepening loop over k = 1..n -/

theorem insAsc_perm (x : Nat) :
    ∀ l : List Nat, (insAsc x l).Perm (x :: l) := by
  intro l
  induction l with
  | nil => simp [insAsc]
  | cons y ys ih =>
    by_cases h : x ≤ y
    · simp [insAsc, h]
    · simp only [insAsc, if_neg h]
      exact (List.Perm.cons y ih).trans (List.Perm.swap x y ys)

theorem sortAsc_perm : ∀ l : List Nat, (sortAsc l).Perm l := by
  intro l
  induction l with
  | nil => simp [sortAsc]
  | cons x xs ih =>
    exact (insAsc_perm x (sortAsc xs)).trans (List.Perm.cons x ih)

theorem tryKs_cons (g : Graph) (vs : List Nat) (k : Nat) (ks : List Nat) :
    tryKs g vs (k :: ks) =
      if (backtrack_with_k_colors g vs [] k).2 then
        some (k, (backtrack_with_k_colors g vs [] k).1)
      else tryKs g vs ks := rfl

theorem tryKs_isSome (g : Graph) (vs : List Nat) :
    ∀ ks : List Nat, (∃ k ∈ ks, (backtrack_with_k_colors g vs [] k).2 = true) →
      (tryKs g vs ks).isSome := by
  intro ks
  induction ks with
  | nil => intro ⟨k, hk, _⟩; simp at hk
  | cons k0 ks ih =>
    intro ⟨k, hk, hsucc⟩
    rw [tryKs_cons]
    by_cases h0 : (backtrack_with_k_colors g vs [] k0).2 = true
    · simp [h0]
    · simp only [h0]
      rcases List.mem_cons.mp hk with hk | hk
      · rw [hk] at hsucc
        exact absurd hsucc h0
      · simp only [Bool.false_eq_true, if_false]
        exact ih ⟨k, hk, hsucc⟩

theorem tryKs_spec (g : Graph) (vs : List Nat) :
    ∀ (ks : List Nat) (p : Nat × Coloring), tryKs g vs ks = some p →
      p.1 ∈ ks ∧ (backtrack_with_k_colors g vs [] p.1).2 = true ∧
        (backtrack_with_k_colors g vs [] p.1).1 = p.2 := by
  intro ks
  induction ks with
  | nil => intro p h; simp [tryKs] at h
  | cons k0 ks ih =>
    intro p h
    rw [tryKs_cons] at h
    by_cases h0 : (backtrack_with_k_colors g vs [] k0).2 = true
    · rw [if_pos h0] at h
      injection h with h
      rw [← h]
      exact ⟨List.mem_cons_self k0 ks, h0, rfl⟩
    · simp only [h0, Bool.false_eq_true, if_false] at h
      obtain ⟨h1, h2, h3⟩ := ih p h
      exact ⟨List.mem_cons_of_mem k0 h1, h2, h3⟩

theorem tryKs_min (g : Graph) (vs : List Nat) :
    ∀ (ks : List Nat), List.Sorted (· ≤ ·) ks →
      ∀ p : Nat × Coloring, tryKs g vs ks = some p →
      ∀ k ∈ ks, (backtrack_with_k_colors g vs [] k).2 = true → p.1 ≤ k := by
  intro ks
  induction ks with
  | nil => intro _ p h; simp [tryKs] at h
  | cons k0 ks ih =>
    intro hs p h k hk hsucc
    rw [List.sorted_cons] at hs
    rw [tryKs_cons] at h
    by_cases h0 : (backtrack_with_k_colors g vs [] k0).2 = true
    · rw [if_pos h0] at h
      injection h with h
      rw [← h]
      rcases List.mem_cons.mp hk with hk | hk
      · rw [hk]
      · exact hs.1 k hk
    · simp only [h0, Bool.false_eq_true, if_false] at h
      rcases List.mem_cons.mp hk with hk | hk
      · rw [hk] at hsucc
        exact absurd hsucc h0
      · exact ih hs.2 p h k hk hsucc

theorem ks_sorted (n : Nat) :
    List.Sorted (· ≤ ·) ((List.range n).map (fun i => i + 1)) := by
  apply List.Pairwise.map
  · intro a b (hab : a < b)
    omega
  · exact List.pairwise_lt_range n

theorem mem_ks_iff (n k : Nat) :
    k ∈ (List.range n).map (fun i => i + 1) ↔ 1 ≤ k ∧ k ≤ n := by
  rw [List.mem_map]
  constructor
  · intro ⟨i, hi, hik⟩
    rw [List.mem_range] at hi
    omega
  · intro ⟨h1, h2⟩
    exact ⟨k - 1, List.mem_range.mpr (by omega), by omega⟩

theorem find2_empty : find_minimum_vertex_coloring ([] : Graph) = some (0, []) := rfl

theorem find2_eq (g : Graph) (hne : ¬ g.isEmpty) :
    find_minimum_vertex_coloring g =
      tryKs g (sortAsc (keys g))
        ((List.range (sortAsc (keys g)).length).map (fun i => i + 1)) := by
  rw [find_minimum_vertex_coloring]
  simp [hne]

theorem getColor_pairSelf : ∀ (l : List Nat) (u : Nat), u ∈ l →
    getColor (l.map (fun v => (v, v))) u = some u := by
  intro l
  induction l with
  | nil => intro u hu; simp at hu
  | cons x xs ih =>
    intro u hu
    by_cases hux : x = u
    · simp [getColor, hux]
    · rcases List.mem_cons.mp hu with h | h
      · exact absurd h.symm hux
      · simp only [List.map_cons, getColor, if_neg hux]
        exact ih u h

theorem numDistinct_le_of_bound (col : Coloring) (k : Nat)
    (hnd : (col.map Prod.fst).Nodup)
    (hbound : ∀ u c, getColor col u = some c → c < k) :
    numDistinct col ≤ k := by
  have : (col.map Prod.snd).toFinset ⊆ Finset.range k := by
    intro c hc
    rw [List.mem_toFinset] at hc
    obtain ⟨u, hu⟩ := (value_mem_iff col hnd c).mp hc
    rw [Finset.mem_range]
    exact hbound u c hu
  have hcard := Finset.card_le_card this
  rw [Finset.card_range] at hcard
  rw [numDistinct, ← List.card_toFinset]
  exact hcard

theorem numDistinct_pos (col : Coloring) (u c : Nat)
    (h : getColor col u = some c) : 1 ≤ numDistinct col := by
  have hmem : c ∈ col.map Prod.snd := snd_mem_of_getColor_some col u c h
  have : c ∈ (col.map Prod.snd).dedup := List.mem_dedup.mpr hmem
  rw [numDistinct]
  exact List.length_pos.mpr (fun hh => by rw [hh] at this; simp at this)

/-- The iterative-deepening solver succeeds on every nonempty well-formed
graph and returns exactly the chromatic number computed by the
branch-and-bound solver. -/
theorem find2_chi (g : Graph) (hwf : GraphWF g) :
    ∃ p, find_minimum_vertex_coloring g = some p ∧
      p.1 = (MVC.find_minimum_vertex_coloring g).1 := by
  by_cases hne : g.isEmpty
  · have hg : g = [] := by
      cases g
      · rfl
      · simp at hne
    subst hg
    exact ⟨(0, []), rfl, rfl⟩
  · set vs := sortAsc (keys g) with hvs
    set n := vs.length with hn
    set ks := (List.range n).map (fun i => i + 1) with hks
    have hperm : vs.Perm (keys g) := sortAsc_perm (keys g)
    have hvsnd : vs.Nodup := hperm.nodup_iff.mpr hwf.1
    have hcovvs : ∀ u ∈ keys g, u ∈ vs := fun u hu => hperm.mem_iff.mpr hu
    have hkeysvs : ∀ u ∈ vs, u ∈ keys g := fun u hu => hperm.mem_iff.mp hu
    set m := (MVC.find_minimum_vertex_coloring g).1 with hm
    have hopt := find1_isOptimal g hwf
    have hgood := find1_good g hwf hne
    -- n ≥ 1
    have hkeysne : keys g ≠ [] := by
      intro hh
      cases g with
      | nil => simp at hne
      | cons p t => simp [keys] at hh
    have hn1 : 1 ≤ n := by
      have hlen := hperm.length_eq
      have hkpos : 1 ≤ (keys g).length := List.length_pos.mpr hkeysne
      omega
    -- m ≥ 1
    obtain ⟨u0, hu0⟩ := List.exists_mem_of_ne_nil (keys g) hkeysne
    have hm1 : 1 ≤ m := by
      have htot := hgood.2.1 u0 hu0
      rcases hcase : getColor (MVC.find_minimum_vertex_coloring g).2 u0 with _ | c
      · rw [hcase] at htot; simp at htot
      · have := numDistinct_pos _ u0 c hcase
        rw [hgood.2.2] at this
        exact this
    -- m ≤ n via the identity coloring
    have hmn : m ≤ n := by
      have hgetid : ∀ u c, getColor ((keys g).map (fun v => (v, v))) u = some c →
          c = u ∧ u ∈ keys g := by
        intro u c hu
        have hmemk : u ∈ ((keys g).map (fun v => (v, v))).map Prod.fst :=
          mem_keys_of_getColor_some _ u c hu
        have hukeys : u ∈ keys g := by
          rw [List.map_map] at hmemk
          simpa [Function.comp] using hmemk
        have hgp := getColor_pairSelf (keys g) u hukeys
        rw [hgp] at hu
        injection hu with hu
        exact ⟨hu.symm, hukeys⟩
      have hid : ProperColoring g ((keys g).map (fun v => (v, v))) := by
        intro u c w c' hu hw hadj
        obtain ⟨hcu, _⟩ := hgetid u c hu
        obtain ⟨hcw, _⟩ := hgetid w c' hw
        rw [hcu, hcw]
        intro huw
        rw [huw] at hadj
        exact wf_irrefl g hwf w hadj
      have hidt : TotalColoring g ((keys g).map (fun v => (v, v))) := by
        intro u hu
        rw [getColor_pairSelf (keys g) u hu]
        rfl
      have hidn : numDistinct ((keys g).map (fun v => (v, v))) = n := by
        rw [numDistinct]
        have hmm : ∀ l : List Nat, (l.map (fun v => (v, v))).map Prod.snd = l := by
          intro l
          induction l with
          | nil => rfl
          | cons x xs ih => simp [ih]
        rw [hmm, List.dedup_eq_self.mpr hwf.1]
        rw [hn]
        exact hperm.length_eq.symm
      have := find1_min g hwf hne _ hid hidt
      rw [hidn] at this
      exact this
    have hmks : m ∈ ks := by
      rw [hks, mem_ks_iff]
      exact ⟨hm1, hmn⟩
    -- the branch-and-bound optimum yields a bounded canonical coloring
    set f0 : Nat → Nat :=
      fun u => (getColor (MVC.find_minimum_vertex_coloring g).2 u).getD 0
      with hf0
    have hf0p : ProperFun g f0 :=
      properFun_of_dict g hwf _ hgood.1 hgood.2.1
    have hfCp : ProperFun g (canonize f0 vs) :=
      canonize_proper g hwf f0 vs hf0p hcovvs
    have hcount : countOn f0 vs ≤ m := by
      have h1 : countOn f0 vs = countOn f0 (keys g) := countOn_perm f0 vs (keys g) hperm
      rw [h1]
      have h2 := countOn_dict_le g (MVC.find_minimum_vertex_coloring g).2 hgood.2.1
      rw [hgood.2.2] at h2
      exact h2
    have hboundC : ∀ u ∈ vs, canonize f0 vs u < m := by
      intro u hu
      exact Nat.lt_of_lt_of_le (canonize_lt f0 vs u hu) hcount
    have hsucc : (backtrack_with_k_colors g vs [] m).2 = true := by
      apply btk_complete g hwf vs [] m (canonize f0 vs) hvsnd
        (fun u _ => rfl) hkeysvs (fun u c h => by simp [getColor] at h)
        hfCp hboundC
    have hissome : (tryKs g vs ks).isSome :=
      tryKs_isSome g vs ks ⟨m, hmks, hsucc⟩
    rcases hres : tryKs g vs ks with _ | p
    · rw [hres] at hissome
      simp at hissome
    · refine ⟨p, ?_, ?_⟩
      · rw [find2_eq g hne, ← hvs, ← hks]
        exact hres
      · obtain ⟨hpks, hpsucc, hpcol⟩ := tryKs_spec g vs ks p hres
        have hple : p.1 ≤ m :=
          tryKs_min g vs ks (hks ▸ ks_sorted n) p hres m hmks hsucc
        have hinv0 : SearchInv2 g [] [] p.1 := by
          refine ⟨by simp, ?_, ?_, ?_⟩
          · intro u
            simp [getColor]
          · intro u c w c' h
            simp [getColor] at h
          · intro u c h
            simp [getColor] at h
        have hS := btk_sound g hwf vs hvsnd vs [] [] p.1 (by simp) hinv0 hpsucc
        rw [List.nil_append] at hS
        obtain ⟨hSnd, hSdom, hSprop, hSbound⟩ := hS
        have hStot : TotalColoring g (backtrack_with_k_colors g vs [] p.1).1 := by
          intro u hu
          rw [hSdom u]
          exact hcovvs u hu
        have hle2 : m ≤ numDistinct (backtrack_with_k_colors g vs [] p.1).1 :=
          hopt.2 _ hSprop hStot
        have hle3 : numDistinct (backtrack_with_k_colors g vs [] p.1).1 ≤ p.1 :=
          numDistinct_le_of_bound _ p.1 hSnd hSbound
        omega

end Exact2

namespace MVC

/-! ### The new-color guard of the branch-and-bound search never fails -/

/-- When every color in the partial coloring is `< used`, assigning the
fresh color `used` can never conflict with a neighbour. -/
theorem guard_never_fails (g : Graph) (v used : Nat) (col : Coloring)
    (hbound : ∀ u c, getColor col u = some c → c < used) :
    is_color_valid g v used col = true := by
  rw [is_color_valid_iff]
  intro u _ hc
  have := hbound u used hc
  omega

/-- Under the reachable-state invariant (pending vertices uncolored and
distinct, all used colors `< used`), the search behaves identically with
the new-color neighbour check removed: that check's failure branch is
unreachable. -/
theorem backtrack_eq_NG (g : Graph) :
    ∀ (rest : List Nat) (col : Coloring) (used : Nat) (best : Nat × Coloring),
      rest.Nodup → (∀ u ∈ rest, getColor col u = none) →
      (∀ u c, getColor col u = some c → c < used) →
      backtrack_coloring g rest col used best =
        backtrack_coloringNG g rest col used best := by
  intro rest
  induction rest with
  | nil =>
    intro col used best _ _ _
    rw [backtrack_nil, backtrackNG_nil]
  | cons v rest ih =>
    intro col used best hnd hnone hbound
    have hvnone : getColor col v = none := hnone v (List.mem_cons_self v rest)
    have hnd' : rest.Nodup := hnd.of_cons
    have hvrest : v ∉ rest := (List.nodup_cons.mp hnd).1
    have hsub : ∀ c, ∀ u ∈ rest, getColor (dinsert col v c) u = none := by
      intro c u hu
      have huv : u ≠ v := fun hh => hvrest (hh ▸ hu)
      rw [getColor_dinsert_ne col v c u huv]
      exact hnone u (List.mem_cons_of_mem v hu)
    have hboundins : ∀ c0, c0 < used + 1 →
        ∀ u c', getColor (dinsert col v c0) u = some c' → c' < used + 1 := by
      intro c0 hc0 u c' hu
      by_cases huv : u = v
      · rw [huv, getColor_dinsert_self] at hu
        injection hu with hu
        omega
      · rw [getColor_dinsert_ne col v c0 u huv] at hu
        have := hbound u c' hu
        omega
    rw [backtrack_cons, backtrackNG_cons]
    by_cases hpr : used ≥ best.1
    · simp only [if_pos hpr]
    · simp only [if_neg hpr]
      have hfoldeq : ∀ (cs : List Nat) (st : Coloring × (Nat × Coloring)),
          (∀ c ∈ cs, c < used) → st.1 = col →
          cs.foldl (tryStep g rest v used) st =
            cs.foldl (tryStepNG g rest v used) st := by
        intro cs
        induction cs with
        | nil => intro st _ _; rfl
        | cons c cs ihc =>
          intro st hcs hst
          rw [List.foldl_cons, List.foldl_cons]
          have hstep : tryStep g rest v used st c = tryStepNG g rest v used st c := by
            unfold tryStep tryStepNG
            by_cases hvalid : is_color_valid g v c st.1 = true
            · simp only [hvalid, if_true]
              have heq : backtrack_coloring g rest (dinsert st.1 v c) used st.2 =
                  backtrack_coloringNG g rest (dinsert st.1 v c) used st.2 := by
                apply ih _ _ _ hnd'
                · rw [hst]
                  exact hsub c
                · intro u c' hu
                  rw [hst] at hu
                  by_cases huv : u = v
                  · rw [huv, getColor_dinsert_self] at hu
                    injection hu with hu
                    have := hcs c (List.mem_cons_self c cs)
                    omega
                  · rw [getColor_dinsert_ne col v c u huv] at hu
                    exact hbound u c' hu
              rw [heq]
            · simp only [hvalid]
              simp
          rw [hstep]
          apply ihc _ (fun c' hc' => hcs c' (List.mem_cons_of_mem c hc'))
          rw [← hstep]
          unfold tryStep
          by_cases hvalid : is_color_valid g v c st.1 = true
          · simp only [hvalid, if_true]
            show derase (backtrack_coloring g rest (dinsert st.1 v c)
              used st.2).1 v = col
            have hr : (backtrack_coloring g rest (dinsert st.1 v c) used st.2).1 =
                dinsert st.1 v c := by
              apply backtrack_restores g rest _ _ _ hnd'
              rw [hst]
              exact hsub c
            rw [hr, hst]
            exact derase_dinsert_cancel col v c hvnone
          · simp only [hvalid]
            simpa using hst
      have hrangelt : ∀ c ∈ List.range used, c < used :=
        fun c hc => List.mem_range.mp hc
      rw [← hfoldeq (List.range used) (col, best) hrangelt rfl]
      have hfoldcol : ((List.range used).foldl (tryStep g rest v used)
          (col, best)).1 = col := by
        have hfold : ∀ (cs : List Nat) (st : Coloring × (Nat × Coloring)),
            st.1 = col → ((cs.foldl (tryStep g rest v used) st)).1 = col := by
          intro cs
          induction cs with
          | nil => intro st h; exact h
          | cons c cs ihc =>
            intro st h
            rw [List.foldl_cons]
            apply ihc
            unfold tryStep
            split
            · show derase (backtrack_coloring g rest (dinsert st.1 v c)
                used st.2).1 v = col
              have hr : (backtrack_coloring g rest (dinsert st.1 v c)
                  used st.2).1 = dinsert st.1 v c := by
                apply backtrack_restores g rest _ _ _ hnd'
                rw [h]
                exact hsub c
              rw [hr, h]
              exact derase_dinsert_cancel col v c hvnone
            · exact h
        exact hfold _ _ rfl
      set s1 := (List.range used).foldl (tryStep g rest v used) (col, best)
        with hs1def
      by_cases hguard : used + 1 < s1.2.1
      · simp only [if_pos hguard]
        have hvalid : is_color_valid g v used s1.1 = true := by
          rw [hs1def, hfoldcol]
          exact guard_never_fails g v used col hbound
        simp only [hvalid, if_true]
        have heq : backtrack_coloring g rest (dinsert s1.1 v used) (used + 1)
            s1.2 = backtrack_coloringNG g rest (dinsert s1.1 v used) (used + 1)
            s1.2 := by
          apply ih _ _ _ hnd'
          · rw [hs1def, hfoldcol]
            exact hsub used
          · rw [hs1def, hfoldcol]
            exact hboundins used (by omega)
        rw [heq]
      · simp only [if_neg hguard]

end MVC

namespace Exact2

open MVC

/-! ### Well-formedness of the graph built by `read_graph` -/

theorem mem_insertNewLbl (l : List Nat) (x y : Nat) :
    x ∈ insertNewLbl l y ↔ x ∈ l ∨ x = y := by
  unfold insertNewLbl
  by_cases h : y ∈ l
  · simp only [if_pos h]
    constructor
    · exact Or.inl
    · intro hh
      rcases hh with hh | hh
      · exact hh
      · rw [hh]; exact h
  · simp [if_neg h, List.mem_append]

theorem labels_fold_acc (step : List Nat → Nat × Nat → List Nat)
    (hstep : ∀ s e x, x ∈ s → x ∈ step s e) :
    ∀ (edges : List (Nat × Nat)) (acc : List Nat) (x : Nat),
      x ∈ acc → x ∈ edges.foldl step acc := by
  intro edges
  induction edges with
  | nil => intro acc x h; exact h
  | cons e es ih =>
    intro acc x h
    rw [List.foldl_cons]
    exact ih _ x (hstep acc e x h)

theorem labels_fold_endpoints :
    ∀ (edges : List (Nat × Nat)) (acc : List Nat), ∀ e ∈ edges,
      e.1 ∈ edges.foldl (fun s e => insertNewLbl (insertNewLbl s e.1) e.2) acc ∧
        e.2 ∈ edges.foldl (fun s e => insertNewLbl (insertNewLbl s e.1) e.2) acc := by
  intro edges
  induction edges with
  | nil => intro acc e he; simp at he
  | cons e0 es ih =>
    intro acc e he
    rw [List.foldl_cons]
    have hstep : ∀ (s : List Nat) (e' : Nat × Nat) (x : Nat), x ∈ s →
        x ∈ insertNewLbl (insertNewLbl s e'.1) e'.2 := by
      intro s e' x hx
      rw [mem_insertNewLbl, mem_insertNewLbl]
      exact Or.inl (Or.inl hx)
    rcases List.mem_cons.mp he with he | he
    · subst he
      constructor
      · apply labels_fold_acc _ hstep
        rw [mem_insertNewLbl, mem_insertNewLbl]
        exact Or.inl (Or.inr rfl)
      · apply labels_fold_acc _ hstep
        rw [mem_insertNewLbl]
        exact Or.inr rfl
    · exact ih _ e he

theorem keys_mk_empty : ∀ l : List Nat,
    keys (l.map (fun i => (i, ([] : List Nat)))) = l := by
  intro l
  induction l with
  | nil => rfl
  | cons x xs ih => simp [keys] at ih ⊢; exact ih

theorem nbrsOf_mk_empty : ∀ (l : List Nat) (x : Nat),
    nbrsOf (l.map (fun i => (i, ([] : List Nat)))) x = [] := by
  intro l
  induction l with
  | nil => intro x; rfl
  | cons y ys ih =>
    intro x
    by_cases h : y = x
    · simp [nbrsOf, h]
    · simp only [List.map_cons, nbrsOf, if_neg h]
      exact ih x

theorem mem_adjAdd (ns : List Nat) (w u : Nat) :
    u ∈ adjAdd ns w ↔ u ∈ ns ∨ u = w := by
  unfold adjAdd
  by_cases h : w ∈ ns
  · simp only [if_pos h]
    constructor
    · exact Or.inl
    · intro hh
      rcases hh with hh | hh
      · exact hh
      · rw [hh]; exact h
  · simp [if_neg h, List.mem_append]

theorem adjAdd_nodup (ns : List Nat) (w : Nat) (h : ns.Nodup) :
    (adjAdd ns w).Nodup := by
  unfold adjAdd
  by_cases hw : w ∈ ns
  · simp only [if_pos hw]
    exact h
  · simp only [if_neg hw]
    rw [List.nodup_append]
    refine ⟨h, List.nodup_singleton w, ?_⟩
    intro a ha hb
    simp only [List.mem_singleton] at hb
    subst hb
    exact hw ha

theorem keys_addAdj (gg : Graph) (u w : Nat) : keys (addAdj gg u w) = keys gg := by
  induction gg with
  | nil => rfl
  | cons p t ih =>
    obtain ⟨a, ns⟩ := p
    by_cases h : a = u
    · simp [addAdj, h, keys]
    · simp only [addAdj, if_neg h]
      simp [keys] at ih ⊢
      exact ih

theorem nbrsOf_addAdj_self (gg : Graph) (u w : Nat) (hu : u ∈ keys gg) :
    nbrsOf (addAdj gg u w) u = adjAdd (nbrsOf gg u) w := by
  induction gg with
  | nil => simp [keys] at hu
  | cons p t ih =>
    obtain ⟨a, ns⟩ := p
    by_cases h : a = u
    · simp only [addAdj, if_pos h]
      simp only [nbrsOf, if_pos h]
    · simp only [addAdj, if_neg h]
      simp only [nbrsOf, if_neg h]
      apply ih
      simp only [keys, List.map_cons, List.mem_cons] at hu
      rcases hu with hu | hu
      · exact absurd hu.symm h
      · simpa [keys] using hu

theorem nbrsOf_addAdj_ne (gg : Graph) (u w x : Nat) (hx : x ≠ u) :
    nbrsOf (addAdj gg u w) x = nbrsOf gg x := by
  induction gg with
  | nil => rfl
  | cons p t ih =>
    obtain ⟨a, ns⟩ := p
    by_cases h : a = u
    · have hax : ¬ a = x := by
        intro hh
        rw [← hh] at hx
        exact hx h
      simp only [addAdj, if_pos h, nbrsOf, if_neg hax]
    · by_cases hax : a = x
      · simp only [addAdj, if_neg h, nbrsOf, if_pos hax]
      · simp only [addAdj, if_neg h, nbrsOf, if_neg hax]
        exact ih

theorem addAdj_not_mem (gg : Graph) (u w : Nat) (hu : u ∉ keys gg) :
    addAdj gg u w = gg := by
  induction gg with
  | nil => rfl
  | cons p t ih =>
    obtain ⟨a, ns⟩ := p
    simp only [keys, List.map_cons, List.mem_cons] at hu
    push_neg at hu
    have hp : ¬ a = u := fun hh => hu.1 hh.symm
    simp only [addAdj, if_neg hp]
    rw [ih (by simpa [keys] using hu.2)]

theorem buildinv_addSymEdge (N : Nat) (gg : Graph) (a b : Nat)
    (hinv : BuildInv N gg) (ha : a < N) (hb : b < N) :
    BuildInv N (addSymEdge gg a b) := by
  obtain ⟨hkeys, hnodup, hbound, hsymm, hirr⟩ := hinv
  unfold addSymEdge
  by_cases hab : a = b
  · simp only [if_pos hab]
    exact ⟨hkeys, hnodup, hbound, hsymm, hirr⟩
  · simp only [if_neg hab]
    have hamem : a ∈ keys gg := by rw [hkeys]; exact List.mem_range.mpr ha
    have hbmem : b ∈ keys gg := by rw [hkeys]; exact List.mem_range.mpr hb
    have hbmem1 : b ∈ keys (addAdj gg a b) := by rw [keys_addAdj]; exact hbmem
    have hba : b ≠ a := fun hh => hab hh.symm
    have hna : nbrsOf (addAdj (addAdj gg a b) b a) a =
        adjAdd (nbrsOf gg a) b := by
      rw [nbrsOf_addAdj_ne _ b a a hab, nbrsOf_addAdj_self gg a b hamem]
    have hnb : nbrsOf (addAdj (addAdj gg a b) b a) b =
        adjAdd (nbrsOf gg b) a := by
      rw [nbrsOf_addAdj_self _ b a hbmem1, nbrsOf_addAdj_ne gg a b b hba]
    have hnx : ∀ x, x ≠ a → x ≠ b →
        nbrsOf (addAdj (addAdj gg a b) b a) x = nbrsOf gg x := by
      intro x hxa hxb
      rw [nbrsOf_addAdj_ne _ b a x hxb, nbrsOf_addAdj_ne gg a b x hxa]
    refine ⟨?_, ?_, ?_, ?_, ?_⟩
    · rw [keys_addAdj, keys_addAdj]
      exact hkeys
    · intro x
      by_cases hxa : x = a
      · rw [hxa, hna]
        exact adjAdd_nodup _ _ (hnodup a)
      · by_cases hxb : x = b
        · rw [hxb, hnb]
          exact adjAdd_nodup _ _ (hnodup b)
        · rw [hnx x hxa hxb]
          exact hnodup x
    · intro x u hu
      by_cases hxa : x = a
      · rw [hxa, hna, mem_adjAdd] at hu
        rcases hu with hu | hu
        · exact hbound a u hu
        · rw [hu]; exact hb
      · by_cases hxb : x = b
        · rw [hxb, hnb, mem_adjAdd] at hu
          rcases hu with hu | hu
          · exact hbound b u hu
          · rw [hu]; exact ha
        · rw [hnx x hxa hxb] at hu
          exact hbound x u hu
    · intro x u hu
      by_cases hxa : x = a
      · rw [hxa, hna, mem_adjAdd] at hu
        by_cases hub : u = b
        · rw [hub, hnb, mem_adjAdd, hxa]
          exact Or.inr rfl
        · have hu' : u ∈ nbrsOf gg a := by
            rcases hu with hu | hu
            · exact hu
            · exact absurd hu hub
          have hua : u ≠ a := by
            intro hh
            rw [hh] at hu'
            exact hirr a hu'
          rw [hnx u hua hub, hxa]
          exact hsymm a u hu'
      · by_cases hxb : x = b
        · rw [hxb, hnb, mem_adjAdd] at hu
          by_cases hua : u = a
          · rw [hua, hna, mem_adjAdd, hxb]
            exact Or.inr rfl
          · have hu' : u ∈ nbrsOf gg b := by
              rcases hu with hu | hu
              · exact hu
              · exact absurd hu hua
            have hub : u ≠ b := by
              intro hh
              rw [hh] at hu'
              exact hirr b hu'
            rw [hnx u hua hub, hxb]
            exact hsymm b u hu'
        · rw [hnx x hxa hxb] at hu
          have hx' : x ∈ nbrsOf gg u := hsymm x u hu
          by_cases hua : u = a
          · rw [hua, hna, mem_adjAdd]
            rw [hua] at hx'
            exact Or.inl hx'
          · by_cases hub : u = b
            · rw [hub, hnb, mem_adjAdd]
              rw [hub] at hx'
              exact Or.inl hx'
            · rw [hnx u hua hub]
              exact hx'
    · intro x
      by_cases hxa : x = a
      · rw [hxa, hna, mem_adjAdd]
        intro hh
        rcases hh with hh | hh
        · exact hirr a hh
        · exact hab hh
      · by_cases hxb : x = b
        · rw [hxb, hnb, mem_adjAdd]
          intro hh
          rcases hh with hh | hh
          · exact hirr b hh
          · exact hba hh
        · rw [hnx x hxa hxb]
          exact hirr x

theorem nbrsOf_entry (gg : Graph) (hnd : (keys gg).Nodup) :
    ∀ p ∈ gg, nbrsOf gg p.1 = p.2 := by
  induction gg with
  | nil => intro p hp; simp at hp
  | cons q t ih =>
    intro p hp
    obtain ⟨a, ns⟩ := q
    simp only [keys, List.map_cons, List.nodup_cons] at hnd
    rcases List.mem_cons.mp hp with hp | hp
    · rw [hp]
      simp [nbrsOf]
    · have hpa : ¬ a = p.1 := by
        intro hh
        apply hnd.1
        rw [hh]
        exact List.mem_map_of_mem Prod.fst hp
      simp only [nbrsOf, if_neg hpa]
      exact ih (by simpa [keys] using hnd.2) p hp

theorem wf_of_buildinv (N : Nat) (gg : Graph) (hinv : BuildInv N gg) :
    GraphWF gg := by
  obtain ⟨hkeys, hnodup, hbound, hsymm, hirr⟩ := hinv
  have hknd : (keys gg).Nodup := by
    rw [hkeys]
    exact List.nodup_range N
  have hentry := nbrsOf_entry gg hknd
  refine ⟨hknd, ?_, ?_, ?_, ?_⟩
  · intro p hp
    rw [← hentry p hp]
    exact hnodup p.1
  · intro p hp u hu
    rw [← hentry p hp] at hu
    rw [hkeys]
    exact List.mem_range.mpr (hbound p.1 u hu)
  · intro p hp u hu
    rw [← hentry p hp] at hu
    exact hsymm p.1 u hu
  · intro p hp
    rw [← hentry p hp]
    exact hirr p.1

theorem idxOf_lt_length : ∀ (l : List Nat) (x : Nat), x ∈ l →
    idxOf l x < l.length := by
  intro l
  induction l with
  | nil => intro x hx; simp at hx
  | cons y ys ih =>
    intro x hx
    by_cases h : y = x
    · simp [idxOf, h]
    · rcases List.mem_cons.mp hx with hh | hh
      · exact absurd hh.symm h
      · simp only [idxOf, if_neg h, List.length_cons]
        have := ih x hh
        omega

/-- The graph `read_graph` builds is always well-formed: symmetric,
duplicate-free adjacency with no self-loops — and construction never
fails, whatever the header values and edge tokens are. -/
theorem read_graph_wf (n m : Nat) (raw : List (Nat × Nat)) :
    GraphWF (read_graph n m raw).1 := by
  have hrg : (read_graph n m raw).1 =
      ((raw.take m).filter (fun e => e.1 ≠ e.2)).foldl
        (fun gg e => addSymEdge gg
          (idxOf (sortAsc (if (((raw.take m).filter
              (fun e => e.1 ≠ e.2)).foldl
              (fun s e => insertNewLbl (insertNewLbl s e.1) e.2) []).isEmpty
            then List.range n
            else ((raw.take m).filter (fun e => e.1 ≠ e.2)).foldl
              (fun s e => insertNewLbl (insertNewLbl s e.1) e.2) [])) e.1)
          (idxOf (sortAsc (if (((raw.take m).filter
              (fun e => e.1 ≠ e.2)).foldl
              (fun s e => insertNewLbl (insertNewLbl s e.1) e.2) []).isEmpty
            then List.range n
            else ((raw.take m).filter (fun e => e.1 ≠ e.2)).foldl
              (fun s e => insertNewLbl (insertNewLbl s e.1) e.2) [])) e.2))
        ((List.range (sortAsc (if (((raw.take m).filter
              (fun e => e.1 ≠ e.2)).foldl
              (fun s e => insertNewLbl (insertNewLbl s e.1) e.2) []).isEmpty
            then List.range n
            else ((raw.take m).filter (fun e => e.1 ≠ e.2)).foldl
              (fun s e => insertNewLbl (insertNewLbl s e.1) e.2) [])).length).map
          (fun i => (i, []))) := rfl
  set edges := (raw.take m).filter (fun e => e.1 ≠ e.2) with hedges
  set labels := edges.foldl (fun s e => insertNewLbl (insertNewLbl s e.1) e.2) []
    with hlabels
  set labels2 := if labels.isEmpty then List.range n else labels with hlabels2
  set sortedLabels := sortAsc labels2 with hsorted
  set N := sortedLabels.length with hN
  rw [hrg]
  have hg0 : BuildInv N ((List.range N).map (fun i => (i, []))) := by
    refine ⟨keys_mk_empty _, ?_, ?_, ?_, ?_⟩
    · intro x
      rw [nbrsOf_mk_empty]
      exact List.nodup_nil
    · intro x u hu
      rw [nbrsOf_mk_empty] at hu
      simp at hu
    · intro x u hu
      rw [nbrsOf_mk_empty] at hu
      simp at hu
    · intro x
      rw [nbrsOf_mk_empty]
      simp
  have hend : ∀ e ∈ edges, e.1 ∈ sortedLabels ∧ e.2 ∈ sortedLabels := by
    intro e he
    have h1 := labels_fold_endpoints edges [] e he
    have hsub : ∀ x, x ∈ labels → x ∈ sortedLabels := by
      intro x hx
      have hlne : ¬ labels.isEmpty := by
        intro hh
        have : labels = [] := by
          cases hle : labels
          · rfl
          · rw [hle] at hh; simp at hh
        rw [this] at hx
        simp at hx
      rw [hsorted, hlabels2, if_neg hlne]
      exact (sortAsc_perm labels).mem_iff.mpr hx
    exact ⟨hsub _ h1.1, hsub _ h1.2⟩
  have hfold : ∀ (es : List (Nat × Nat)) (gg : Graph),
      BuildInv N gg → (∀ e ∈ es, e.1 ∈ sortedLabels ∧ e.2 ∈ sortedLabels) →
      BuildInv N (es.foldl (fun gg e => addSymEdge gg
        (idxOf sortedLabels e.1) (idxOf sortedLabels e.2)) gg) := by
    intro es
    induction es with
    | nil => intro gg hinv _; exact hinv
    | cons e es ih =>
      intro gg hinv hes
      rw [List.foldl_cons]
      apply ih
      · apply buildinv_addSymEdge N gg _ _ hinv
        · exact idxOf_lt_length _ _ (hes e (List.mem_cons_self e es)).1
        · exact idxOf_lt_length _ _ (hes e (List.mem_cons_self e es)).2
      · intro e' he'
        exact hes e' (List.mem_cons_of_mem e he')
  exact wf_of_buildinv N _ (hfold edges _ hg0 hend)

/-! ### The result assembler of `main` -/

theorem output_lines_spec (index_to_label : List Nat) (coloring : Coloring) :
    (output_lines index_to_label coloring).length = index_to_label.length ∧
      ∀ i, i < index_to_label.length →
        (output_lines index_to_label coloring)[i]? =
          some (index_to_label.getD i 0, (getColor coloring i).getD 0) := by
  constructor
  · simp [output_lines]
  · intro i hi
    unfold output_lines
    rw [List.getElem?_map, List.getElem?_range hi]
    rfl

end Exact2

/-! ## The claims -/

open MVC Exact2

/-- C1: for every well-formed graph (symmetric, self-loop-free adjacency
dict), `MVC.find_minimum_vertex_coloring` returns `(chi, coloring)` where
`coloring` is a valid total coloring and `chi` is the minimum, over all
valid total colorings, of the number of distinct colors used (and that
minimum is attained). -/
theorem claim_C1 (g : Graph) (hwf : GraphWF g) :
    ProperColoring g (MVC.find_minimum_vertex_coloring g).2 ∧
      TotalColoring g (MVC.find_minimum_vertex_coloring g).2 ∧
      (∃ col, ProperColoring g col ∧ TotalColoring g col ∧
        numDistinct col = (MVC.find_minimum_vertex_coloring g).1) ∧
      (∀ col, ProperColoring g col → TotalColoring g col →
        (MVC.find_minimum_vertex_coloring g).1 ≤ numDistinct col) := by
  have hopt := find1_isOptimal g hwf
  by_cases hne : g.isEmpty
  · have hg : g = [] := by
      cases g
      · rfl
      · simp at hne
    subst hg
    rw [find1_empty] at hopt ⊢
    refine ⟨?_, ?_, hopt.1, hopt.2⟩
    · intro u c w c' h
      simp [getColor] at h
    · intro u hu
      simp [keys] at hu
  · have hgood := find1_good g hwf hne
    exact ⟨hgood.1, hgood.2.1, hopt.1, hopt.2⟩

/-- Witness for C1 at the triangle `K3`. -/
theorem claim_C1_witness :
    ProperColoring gK3 (MVC.find_minimum_vertex_coloring gK3).2 ∧
      TotalColoring gK3 (MVC.find_minimum_vertex_coloring gK3).2 ∧
      (∃ col, ProperColoring gK3 col ∧ TotalColoring gK3 col ∧
        numDistinct col = (MVC.find_minimum_vertex_coloring gK3).1) ∧
      (∀ col, ProperColoring gK3 col → TotalColoring gK3 col →
        (MVC.find_minimum_vertex_coloring gK3).1 ≤ numDistinct col) :=
  claim_C1 gK3 (by unfold GraphWF; decide)

/-- C2: the greedy seeding (greedy coloring along the degree order over
all vertices) is a valid total coloring for any well-formed graph with at
least one vertex, and for the empty graph it returns exactly `(0, {})`. -/
theorem claim_C2 :
    (∀ g : Graph, GraphWF g → ¬ g.isEmpty →
        ProperColoring g (greedy_coloring g (order_vertices_by_degree g)).2 ∧
          TotalColoring g (greedy_coloring g (order_vertices_by_degree g)).2) ∧
      greedy_coloring [] (order_vertices_by_degree []) = (0, []) := by
  constructor
  · intro g hwf hne
    have h := greedy_seed_good g hwf (order_vertices_by_degree g)
      (order_nodup g hwf.1) (fun u hu => (mem_order_iff g u).mpr hu) hne
    exact ⟨h.1, h.2.1⟩
  · rfl

/-- Witness for C2 at the triangle `K3`. -/
theorem claim_C2_witness :
    ProperColoring gK3 (greedy_coloring gK3 (order_vertices_by_degree gK3)).2 ∧
      TotalColoring gK3 (greedy_coloring gK3 (order_vertices_by_degree gK3)).2 :=
  claim_C2.1 gK3 (by unfold GraphWF; decide) (by decide)

/-- Counterexample to C3 as stated: on the adjacency dict
`{1: {}, 0: {}}` (two isolated vertices inserted in descending key order)
the code's order is `[1, 0]` — Python's stable sort keeps the dict's key
order on degree ties — whereas the spec's tie-break by ascending vertex id
would give `[0, 1]`. -/
theorem claim_C3_counterexample :
    order_vertices_by_degree [(1, []), (0, [])] = [1, 0] ∧
      spec_order [(1, []), (0, [])] = [0, 1] ∧
      order_vertices_by_degree [(1, []), (0, [])] ≠
        spec_order [(1, []), (0, [])] := by decide

/-- C3 (amended): the order is the keys sorted by weakly descending
degree, with ties broken by the adjacency dict's key (insertion) order —
not by ascending vertex id; it is a deterministic function of the
adjacency dict (including its key order).  Stability is expressed by the
filter equation: within each degree class the order coincides with the
dict's key order. -/
theorem claim_C3 (g : Graph) :
    (order_vertices_by_degree g).Perm (keys g) ∧
      List.Sorted (fun a b => degree g b ≤ degree g a)
        (order_vertices_by_degree g) ∧
      ∀ d, (order_vertices_by_degree g).filter (fun v => degree g v = d) =
        (keys g).filter (fun v => degree g v = d) :=
  ⟨order_perm_keys g, sortDesc_sorted _ _, fun d => sortDesc_filter _ d _⟩

/-- C4: whenever every color of the partial coloring is `< used` (which
holds in every reachable state of the search, as the second conjunct
shows), the neighbour-conflict check guarding the new-color branch always
succeeds, so the search is unchanged if that check is removed: its skip
branch is unreachable. -/
theorem claim_C4 :
    (∀ (g : Graph) (v used : Nat) (col : Coloring),
        (∀ u c, getColor col u = some c → c < used) →
        is_color_valid g v used col = true) ∧
      (∀ (g : Graph) (rest : List Nat) (col : Coloring) (used : Nat)
          (best : Nat × Coloring), rest.Nodup →
        (∀ u ∈ rest, getColor col u = none) →
        (∀ u c, getColor col u = some c → c < used) →
        backtrack_coloring g rest col used best =
          backtrack_coloringNG g rest col used best) :=
  ⟨fun g v used col h => guard_never_fails g v used col h,
    fun g rest col used best h1 h2 h3 => backtrack_eq_NG g rest col used best h1 h2 h3⟩

/-- Witness for C4: the guard holds and the guard-free variant agrees on a
concrete search from the initial state on `K3`. -/
theorem claim_C4_witness :
    is_color_valid gK3 0 0 [] = true ∧
      backtrack_coloring gK3 [0, 1, 2] [] 0 (3, []) =
        backtrack_coloringNG gK3 [0, 1, 2] [] 0 (3, []) :=
  ⟨claim_C4.1 gK3 0 0 [] (fun u c h => by simp [getColor] at h),
    claim_C4.2 gK3 [0, 1, 2] [] 0 (3, []) (by decide) (fun u _ => rfl)
      (fun u c h => by simp [getColor] at h)⟩

/-- C5: the best-known color count never increases across any search call;
consequently the final answer never exceeds the greedy seed (the greedy
upper bound is always ≥ the exact result); and from the initial state the
best record is overwritten only by a strictly better proper total coloring
whose stored count is its distinct-color count. -/
theorem claim_C5 :
    (∀ (g : Graph) (rest : List Nat) (col : Coloring) (used : Nat)
        (best : Nat × Coloring),
      (backtrack_coloring g rest col used best).2.1 ≤ best.1) ∧
      (∀ g : Graph, (MVC.find_minimum_vertex_coloring g).1 ≤
        (greedy_coloring g (order_vertices_by_degree g)).1) ∧
      (∀ g : Graph, GraphWF g → ¬ g.isEmpty →
        MVC.find_minimum_vertex_coloring g =
            greedy_coloring g (order_vertices_by_degree g) ∨
          ((MVC.find_minimum_vertex_coloring g).1 <
              (greedy_coloring g (order_vertices_by_degree g)).1 ∧
            ProperColoring g (MVC.find_minimum_vertex_coloring g).2 ∧
            TotalColoring g (MVC.find_minimum_vertex_coloring g).2 ∧
            numDistinct (MVC.find_minimum_vertex_coloring g).2 =
              (MVC.find_minimum_vertex_coloring g).1)) := by
  refine ⟨fun g rest col used best => backtrack_best_mono g rest col used best,
    fun g => find1_le_greedy g, ?_⟩
  intro g hwf hne
  have hordnd := order_nodup g hwf.1
  have hcov : ∀ u ∈ keys g, u ∈ order_vertices_by_degree g :=
    fun u hu => (mem_order_iff g u).mpr hu
  have hA := backtrack_sound g hwf (order_vertices_by_degree g) hordnd hcov
    (order_vertices_by_degree g) [] [] 0
    (greedy_coloring g (order_vertices_by_degree g)) (by simp)
    (searchinv_init g)
  rw [find1_eq g hne]
  rcases hA with hA | ⟨hgood, hlt⟩
  · left
    exact hA
  · right
    exact ⟨hlt, hgood.1, hgood.2.1, hgood.2.2⟩

/-- Witness for C5 at `K3` and a concrete recursive call. -/
theorem claim_C5_witness :
    (backtrack_coloring gK3 [0, 1, 2] [] 0 (5, [])).2.1 ≤ 5 ∧
      (MVC.find_minimum_vertex_coloring gK3).1 ≤
        (greedy_coloring gK3 (order_vertices_by_degree gK3)).1 ∧
      (MVC.find_minimum_vertex_coloring gK3 =
          greedy_coloring gK3 (order_vertices_by_degree gK3) ∨
        ((MVC.find_minimum_vertex_coloring gK3).1 <
            (greedy_coloring gK3 (order_vertices_by_degree gK3)).1 ∧
          ProperColoring gK3 (MVC.find_minimum_vertex_coloring gK3).2 ∧
          TotalColoring gK3 (MVC.find_minimum_vertex_coloring gK3).2 ∧
          numDistinct (MVC.find_minimum_vertex_coloring gK3).2 =
            (MVC.find_minimum_vertex_coloring gK3).1)) :=
  ⟨claim_C5.1 gK3 [0, 1, 2] [] 0 (5, []), claim_C5.2.1 gK3,
    claim_C5.2.2 gK3 (by unfold GraphWF; decide) (by decide)⟩

/-- Counterexample to C6 as stated: when the current vertex is already
colored at entry (a state the claim's universal quantification includes),
the assignment overwrites the old binding and the rollback deletes it, so
the coloring is not restored: on graph `{0: {}}` with entry coloring
`{0: 5}` the call returns with the coloring `{}`. -/
theorem claim_C6_counterexample :
    (backtrack_coloring [(0, [])] [0] [(0, 5)] 0 (10, [])).1 ≠ [(0, 5)] := by
  decide

/-- C6 (amended): every search frame restores the partial coloring it was
given, provided the pending vertices are distinct and not yet colored —
which is exactly the situation in every reachable frame of the search. -/
theorem claim_C6 (g : Graph) (rest : List Nat) (col : Coloring) (used : Nat)
    (best : Nat × Coloring) (h1 : rest.Nodup)
    (h2 : ∀ u ∈ rest, getColor col u = none) :
    (backtrack_coloring g rest col used best).1 = col :=
  backtrack_restores g rest col used best h1 h2

/-- Witness for C6 on a concrete search over `K3`. -/
theorem claim_C6_witness :
    (backtrack_coloring gK3 [0, 1, 2] [(7, 4)] 0 (3, [])).1 = [(7, 4)] :=
  claim_C6 gK3 [0, 1, 2] [(7, 4)] 0 (3, []) (by decide) (fun u hu => by
    fin_cases hu <;> rfl)

/-- Counterexample to C7 as stated: `read_graph` never rejects an edge
endpoint outside `[0, vertex_count)` — there is no `InvalidEdge` failure
outcome at all.  With header `n = 1, m = 1` and edge `0 1`, endpoint `1`
is outside `[0, 1)`, yet construction succeeds and simply adds `1` as a
vertex. -/
theorem claim_C7_counterexample :
    read_graph 1 1 [(0, 1)] = ([(0, [1]), (1, [0])], [0, 1]) := by decide

/-- C7 (amended): graph construction never fails — out-of-range endpoints
are accepted, the vertex set being derived from the edge endpoints — and
the built adjacency structure is always well-formed: duplicate-free keys
and neighbour sets (parallel edges deduplicated), self-loop edges
discarded (no vertex neighbours itself), closed and symmetric. -/
theorem claim_C7 (n m : Nat) (raw : List (Nat × Nat)) :
    GraphWF (read_graph n m raw).1 :=
  read_graph_wf n m raw

/-- Counterexample to C8 as stated: result assembly never raises an
`IncompleteColoringError`; a vertex with no color is silently printed with
color `0`.  Here vertex `1` is uncolored and the assembly still emits the
pair `(1, 0)`. -/
theorem claim_C8_counterexample :
    output_lines [0, 1] [(0, 1)] = [(0, 1), (1, 0)] := by decide

/-- C8 (amended): result assembly is total — it emits one line per vertex,
and an uncolored vertex is silently given color `0` (`coloring.get(i, 0)`)
rather than causing an error; in particular, given a total coloring the
emitted colors are exactly the coloring's. -/
theorem claim_C8 (index_to_label : List Nat) (coloring : Coloring) :
    (output_lines index_to_label coloring).length = index_to_label.length ∧
      ∀ i, i < index_to_label.length →
        (output_lines index_to_label coloring)[i]? =
          some (index_to_label.getD i 0, (getColor coloring i).getD 0) :=
  output_lines_spec index_to_label coloring

/-- Witness for C8 at the counterexample input: the uncolored vertex `1`
receives color `0`. -/
theorem claim_C8_witness :
    (output_lines [0, 1] [(0, 1)]).length = 2 ∧
      (output_lines [0, 1] [(0, 1)])[1]? = some (1, 0) :=
  ⟨(claim_C8 [0, 1] [(0, 1)]).1, (claim_C8 [0, 1] [(0, 1)]).2 1 (by decide)⟩

/-- C9: the iterative-deepening exact solver terminates with a result on
every well-formed finite graph: the `k = 1..n` loop always finds a
coloring for some `k`, so the unreachable failure branch (modelled as
`none`) is never taken. -/
theorem claim_C9 (g : Graph) (hwf : GraphWF g) :
    (Exact2.find_minimum_vertex_coloring g).isSome := by
  obtain ⟨p, hp, _⟩ := find2_chi g hwf
  rw [hp]
  rfl

/-- Witness for C9 at the triangle `K3`. -/
theorem claim_C9_witness : (Exact2.find_minimum_vertex_coloring gK3).isSome :=
  claim_C9 gK3 (by unfold GraphWF; decide)

/-- C10: on the same well-formed adjacency dict, the branch-and-bound
solver of min_vertex_coloring.py and the iterative-deepening solver of
cs412_mingraphcolor_exact.py return the same chromatic number. -/
theorem claim_C10 (g : Graph) (hwf : GraphWF g) :
    ∃ p, Exact2.find_minimum_vertex_coloring g = some p ∧
      p.1 = (MVC.find_minimum_vertex_coloring g).1 :=
  find2_chi g hwf

/-- Witness for C10 at the path `P4`. -/
theorem claim_C10_witness :
    ∃ p, Exact2.find_minimum_vertex_coloring gP4 = some p ∧
      p.1 = (MVC.find_minimum_vertex_coloring gP4).1 :=
  claim_C10 gP4 (by unfold GraphWF; decide)
